import Mathlib

/-!
# Verification of the cardinal filesystem-search core against its specification

Shallow embedding of the relevant parts of the repository:

* `namepool/src/lib.rs` — the NUL-delimited name pool (`push`, `get`,
  `search_substr`, `search_exact`, `par_search_substr`).
* `search-cache/src/query.rs` — the query evaluator (`evaluate_expr` and the
  boolean/filter helpers), parameterised over the parts of the crate that are
  not part of the evaluator itself (name-pool wrapper, path resolution,
  segmentation, regex engine).
* `search-cache/src/query_preprocessor.rs` — the `~` home-directory expansion.
* `search-cache/src/slab_node.rs` — `NameAndParent::new` and
  `SlabNode::add_children`.

Bytes are modelled as `Nat` (the code only ever compares them against the NUL
byte `0`), byte strings as `List Nat`, and Rust `String`s as `List Char`.
-/

namespace Cardinal

/-! ## Name pool (namepool/src/lib.rs) -/
/-- The name pool: a single growable byte buffer.  In the source:
`pub struct NamePool { pool: Vec<u8> }`. -/
structure NamePool where
  pool : List Nat
  deriving Repr, DecidableEq

namespace NamePool

/-- `NamePool::new`: the pool starts with a single leading NUL. -/
def new : NamePool := ⟨[0]⟩

/-- `NamePool::len`. -/
def len (p : NamePool) : Nat := p.pool.length

/-- `NamePool::push`: unconditionally appends `name` followed by a NUL byte and
returns the offset at which the name was stored (the old length). -/
def push (p : NamePool) (name : List Nat) : Nat × NamePool :=
  (p.pool.length, ⟨p.pool ++ name ++ [0]⟩)

/-- Pushing a whole list of names in order, starting from the fresh pool. -/
def pushAll (names : List (List Nat)) : NamePool :=
  names.foldl (fun p n => (p.push n).2) new

end NamePool

/-- `Iterator::position(|&x| x == 0)`: index of the first NUL byte. -/
def posOfNul : List Nat → Option Nat
  | [] => none
  | b :: t => if b = 0 then some 0 else (posOfNul t).map (· + 1)

/-- `Iterator::rposition(|&x| x == 0)`: index of the last NUL byte. -/
def rposOfNul (l : List Nat) : Option Nat :=
  (posOfNul l.reverse).map (fun i => l.length - 1 - i)

namespace NamePool

/-- The `end` computed by `NamePool::get`: the index of the first NUL at or
after `offset`, or the pool length if there is none. -/
def endOf (p : NamePool) (offset : Nat) : Nat :=
  match posOfNul (p.pool.drop offset) with
  | some i => i + offset
  | none => p.pool.length

/-- The `begin` computed by `NamePool::get`: one past the last NUL strictly
before `offset`, or `0` if there is none. -/
def beginAt (p : NamePool) (offset : Nat) : Nat :=
  match rposOfNul (p.pool.take offset) with
  | some i => i + 1
  | none => 0

/-- `NamePool::get`: returns the index of the trailing NUL and the name
containing byte position `offset`. -/
def getPair (p : NamePool) (offset : Nat) : Nat × List Nat :=
  (p.endOf offset, (p.pool.drop (p.beginAt offset)).take (p.endOf offset - p.beginAt offset))

end NamePool

/-! `memchr::memmem::find_iter`: all non-overlapping occurrences of a needle,
scanning left to right.  Implemented with explicit fuel so that it is
structurally recursive and evaluates by kernel reduction. -/
/-- Worker for `findIter`.  At each step either records a match and skips past
it, or advances by one byte. -/
def findIterGo (needle : List Nat) : Nat → List Nat → Nat → List Nat
  | 0, _, _ => []
  | fuel + 1, hay, pos =>
    if needle.isPrefixOf hay then
      pos :: findIterGo needle fuel (hay.drop needle.length) (pos + needle.length)
    else
      match hay with
      | [] => []
      | _ :: t => findIterGo needle fuel t (pos + 1)

/-- All non-overlapping occurrences of `needle` in `hay`, leftmost first
(the semantics of `memmem::find_iter`; an empty needle matches everywhere). -/
def findIter (hay needle : List Nat) : List Nat :=
  if needle.isEmpty then List.range (hay.length + 1)
  else findIterGo needle (hay.length + 1) hay 0

/-- `Itertools::dedup_by` on the first component: collapse consecutive pairs
with equal first components, keeping the first of each run. -/
def dedupByFst : List (Nat × List Nat) → List (Nat × List Nat)
  | [] => []
  | x :: xs => x :: dedupByFstGo x xs
where
  dedupByFstGo (last : Nat × List Nat) : List (Nat × List Nat) → List (Nat × List Nat)
  | [] => []
  | y :: ys => if y.1 = last.1 then dedupByFstGo last ys else y :: dedupByFstGo y ys

namespace NamePool

/-- `NamePool::search_substr`: find every occurrence, map to `get`, collapse
consecutive hits with the same trailing NUL, and keep the names. -/
def searchSubstr (p : NamePool) (substr : List Nat) : List (List Nat) :=
  (dedupByFst ((findIter p.pool substr).map p.getPair)).map (·.2)

/-- `NamePool::search_exact`: the pattern must start and end with a NUL byte
(the source `assert!`s this; modelled as `none` on violation).  Each match is
mapped to the name ending at the match's trailing NUL. -/
def searchExact (p : NamePool) (exact : List Nat) : Option (List (List Nat)) :=
  if exact.head? = some 0 ∧ exact.getLast? = some 0 then
    some ((findIter p.pool exact).map (fun x => (p.getPair (x + exact.length - 1)).2))
  else
    none

end NamePool

/-- Insertion into a `BTreeMap<usize, &str>` modelled as a key-sorted
association list; inserting an existing key replaces its value. -/
def bmapInsert : List (Nat × List Nat) → Nat × List Nat → List (Nat × List Nat)
  | [], kv => [kv]
  | (k', v') :: rest, (k, v) =>
    if k < k' then (k, v) :: (k', v') :: rest
    else if k = k' then (k, v) :: rest
    else (k', v') :: bmapInsert rest (k, v)

namespace NamePool

/-- The byte ranges searched by `par_search_substr`: `(0..pool_len)` stepped by
`chunk_size`. -/
def chunkStarts (poolLen cs : Nat) : List Nat :=
  (List.range ((poolLen + cs - 1) / cs)).map (· * cs)

/-- The chunk size chosen by `par_search_substr`:
`(pool_len / parallelism).max(1024).min(pool_len)`.  `get_parallelism()` is
runtime-dependent (`available_parallelism` clamped to at most 32, defaulting to
4), so the parallelism is a parameter here. -/
def chunkSize (poolLen par : Nat) : Nat :=
  min (max (poolLen / par) 1024) poolLen

/-- The absolute match positions produced by one range of
`par_search_substr`: search the slice `pool[i..read_end]` and keep matches
whose start lies inside the range's own span. -/
def chunkHits (p : NamePool) (substr : List Nat) (cs i : Nat) : List Nat :=
  let searchEnd := min (i + cs) p.pool.length
  let readEnd := min (searchEnd + substr.length - 1) p.pool.length
  let slice := (p.pool.drop i).take (readEnd - i)
  ((findIter slice substr).filter (fun x => i + x < searchEnd)).map (i + ·)

/-- `NamePool::par_search_substr`, with the machine-dependent parallelism as a
parameter: per-range hits merged through a `BTreeMap` keyed by the trailing
NUL, then the values in key order. -/
def parSearchSubstr (par : Nat) (p : NamePool) (substr : List Nat) : List (List Nat) :=
  if p.pool.length = 0 ∨ substr = [] then []
  else
    let cs := chunkSize p.pool.length par
    let pairs := (chunkStarts p.pool.length cs).flatMap
      (fun i => (p.chunkHits substr cs i).map p.getPair)
    (pairs.foldl bmapInsert []).map (·.2)

end NamePool

/-! ## slab_node.rs: `NameAndParent::new` and `SlabNode::add_children` -/
/-- `NameAndParent` stores a pointer and a `u32` length; modelled as the name
itself plus the parent.  (`OptionSlabIndex` is modelled as `Option Nat`.) -/
structure NameAndParent where
  name : List Nat
  parent : Option Nat
  deriving Repr, DecidableEq

/-- `NameAndParent::new`: the only length restriction is the
`usize → u32` conversion, which panics (modelled as `none`) only when the
name is longer than `u32::MAX = 2^32 - 1` bytes. -/
def nameAndParentNew (s : List Nat) (parent : Option Nat) : Option NameAndParent :=
  if s.length ≤ 2 ^ 32 - 1 then some ⟨s, parent⟩ else none

/-- `SlabNode::add_children`: append the index only if it is not already
present in the children list. -/
def addChildren (children : List Nat) (c : Nat) : List Nat :=
  if c ∈ children then children else children ++ [c]

/-! ## The parsed query tree (cardinal-syntax, as consumed by query.rs and
query_preprocessor.rs).  Rust `String`s are modelled as `List Char`. -/
/-- Rust `String` / `&str`, modelled as a list of characters. -/
abbrev Str := List Char

/-- `cardinal_syntax::RangeSeparator`. -/
inductive RangeSeparator
  | dots
  | hyphen
  deriving Repr, DecidableEq

/-- `cardinal_syntax::RangeValue { start, end, separator }` (`end` is a Lean
keyword, so the field is named `stop`). -/
structure RangeValue where
  start : Option Str
  stop : Option Str
  separator : RangeSeparator
  deriving Repr, DecidableEq

/-- Comparison operators appearing in filter arguments. -/
inductive ComparisonOp
  | gt
  | ge
  | lt
  | le
  | eq
  | ne
  deriving Repr, DecidableEq

/-- `cardinal_syntax::ComparisonValue`. -/
structure ComparisonValue where
  op : ComparisonOp
  value : Str
  deriving Repr, DecidableEq

/-- `cardinal_syntax::ArgumentKind`. -/
inductive ArgumentKind
  | bare
  | phrase
  | list (values : List Str)
  | range (r : RangeValue)
  | comparison (c : ComparisonValue)
  deriving Repr, DecidableEq

/-- `cardinal_syntax::FilterArgument { raw, kind }`. -/
structure FilterArgument where
  raw : Str
  kind : ArgumentKind
  deriving Repr, DecidableEq

/-- `cardinal_syntax::FilterKind` (the variants used by the search cache). -/
inductive FilterKind
  | file
  | folder
  | ext
  | parent
  | inFolder
  | noSubfolders
  | size
  | dateModified
  | dateCreated
  deriving Repr, DecidableEq

/-- `cardinal_syntax::Filter { kind, argument }`. -/
structure Filter where
  kind : FilterKind
  argument : Option FilterArgument
  deriving Repr, DecidableEq

/-- `cardinal_syntax::Term`. -/
inductive Term
  | word (text : Str)
  | phrase (text : Str)
  | regex (pattern : Str)
  | filter (f : Filter)
  deriving Repr, DecidableEq

/-- `cardinal_syntax::Expr`. -/
inductive Expr
  | empty
  | term (t : Term)
  | not (inner : Expr)
  | and (parts : List Expr)
  | or (parts : List Expr)

/-- `cardinal_syntax::Query`. -/
structure Query where
  expr : Expr

/-! ## Home-directory expansion (query_preprocessor.rs) -/
/-- `expand_home_prefix`: `Some` with the expansion for a bare `~` or a `~`
followed by `/` or `\`, and `None` (leave untouched) otherwise — in
particular for `~user`. -/
def expandHomeStart (value home : Str) : Option Str :=
  match value with
  | [] => none
  | c :: remainder =>
    if c = '~' then
      match remainder with
      | [] => some home
      | c2 :: _ => if c2 = '/' ∨ c2 = '\\' then some (home ++ remainder) else none
    else none

/-- `expand_text`: expansion result, or the value unchanged. -/
def expandText (value home : Str) : Str :=
  (expandHomeStart value home).getD value

/-- `expand_comparison`. -/
def expandComparison (c : ComparisonValue) (home : Str) : ComparisonValue :=
  { c with value := expandText c.value home }

/-- `expand_range`. -/
def expandRange (r : RangeValue) (home : Str) : RangeValue :=
  { r with
    start := r.start.map (fun s => expandText s home)
    stop := r.stop.map (fun s => expandText s home) }

/-- `expand_filter_argument`. -/
def expandFilterArgument (a : FilterArgument) (home : Str) : FilterArgument :=
  { raw := expandText a.raw home
    kind :=
      match a.kind with
      | .bare => .bare
      | .phrase => .phrase
      | .list vs => .list (vs.map (fun v => expandText v home))
      | .range r => .range (expandRange r home)
      | .comparison c => .comparison (expandComparison c home) }

/-- `filter_requires_path`: only `parent:`, `infolder:` and `nosubfolders:`
take filesystem-like paths. -/
def filterRequiresPath : FilterKind → Bool
  | .parent | .inFolder | .noSubfolders => true
  | _ => false

/-- `expand_filter`. -/
def expandFilter (f : Filter) (home : Str) : Filter :=
  if filterRequiresPath f.kind then
    { f with argument := f.argument.map (fun a => expandFilterArgument a home) }
  else f

/-- `expand_term`: words and filters are expanded; a quoted phrase or a regex
pattern is left untouched. -/
def expandTerm (t : Term) (home : Str) : Term :=
  match t with
  | .word w => .word (expandText w home)
  | .filter f => .filter (expandFilter f home)
  | .phrase p => .phrase p
  | .regex r => .regex r

/-- `expand_expr`: structural recursion over the expression tree. -/
def expandExpr (home : Str) : Expr → Expr
  | .empty => .empty
  | .term t => .term (expandTerm t home)
  | .not inner => .not (expandExpr home inner)
  | .and parts => .and (parts.attach.map (fun x => expandExpr home x.1))
  | .or parts => .or (parts.attach.map (fun x => expandExpr home x.1))
termination_by e => sizeOf e
decreasing_by
  all_goals simp_wf
  all_goals have := List.sizeOf_lt_of_mem x.2
  all_goals omega

/-- `expand_query_home_dirs_with_home`. -/
def expandQueryHomeDirs (q : Query) (home : Str) : Query :=
  { q with expr := expandExpr home q.expr }

/-! ## The query evaluator (search-cache/src/query.rs)

The evaluator is embedded as a function of an `EvalEnv` bundling the pieces it
calls into: the rest of the `search-cache` crate that is not part of the
included sources (`search_empty`, the cancellable `NAME_POOL` wrapper,
`node_index_for_raw_path`, `all_subnodes`, `build_segment_matchers`) and the
external crates (`query_segmentation`, `regex`, `std::path`).  A cancellation
token is a constant Boolean (`true` = cancelled): generational tokens never
flip back, and the model evaluates atomically. -/
/-- `fswalk::NodeFileType`. -/
inductive NodeFileType
  | dir
  | file
  | symlink
  | unknown
  deriving Repr, DecidableEq

/-- A compiled `regex::Regex`, opaque to the evaluator. -/
structure Regex where
  id : Nat
  deriving Repr, DecidableEq

/-- `SegmentKind` (search-cache crate). -/
inductive SegmentKind
  | substr
  | prefixSeg
  | suffixSeg
  | exactSeg
  deriving Repr, DecidableEq

/-- `SegmentMatcher` (search-cache crate). -/
inductive SegmentMatcher
  | plain (kind : SegmentKind) (needle : Str)
  | regex (r : Regex)
  deriving Repr, DecidableEq

/-- `SearchOptions`. -/
structure SearchOptions where
  caseInsensitive : Bool
  deriving Repr, DecidableEq

/-- `CancellationToken::is_cancelled`, constant during one evaluation. -/
abbrev Token := Bool

/-- `Result<Option<Vec<SlabIndex>>>` together with panics:
`.err` ↔ `Err(_)`, `.cancelled` ↔ `Ok(None)`, `.ok v` ↔ `Ok(Some(v))`. -/
inductive EvalResult
  | panic (msg : String)
  | err (msg : String)
  | cancelled
  | ok (nodes : List Nat)
  deriving Repr, DecidableEq

/-- The evaluator's environment: the search cache state plus the functions it
calls that live outside query.rs. -/
structure EvalEnv where
  /-- Modelled from the spec: `SearchCache::search_empty` (cache.rs, not under
  src/) returns every node, or no result when the token is cancelled. -/
  searchEmpty : Token → Option (List Nat)
  /-- External crate `query_segmentation::query_segmentation`. -/
  segmentation : Str → List Str
  /-- Modelled from the spec: `build_segment_matchers` (not under src/) turns
  the segments into matchers, failing on an invalid regex. -/
  buildMatchers : List Str → SearchOptions → Except String (List SegmentMatcher)
  /-- External `regex::RegexBuilder::build` (pattern, case_insensitive). -/
  regexBuild : Str → Bool → Except String Regex
  /-- External `regex::escape`. -/
  regexEscape : Str → Str
  /-- Modelled from the spec: the cancellable `NAME_POOL` search dispatch
  (cache.rs, not under src/); no result when the token is cancelled. -/
  poolSearch : SegmentMatcher → Token → Option (List Str)
  /-- `self.name_index` lookup (node indices holding a given name). -/
  nameIndex : Str → List Nat
  /-- `self.file_nodes[i].children`. -/
  childrenOf : Nat → List Nat
  /-- `self.file_nodes[i].name_and_parent.as_str()`. -/
  nodeName : Nat → Str
  /-- `SegmentMatcher::matches`. -/
  matcherMatches : SegmentMatcher → Str → Bool
  /-- `self.file_nodes[i].metadata.file_type_hint()`. -/
  fileTypeHint : Nat → NodeFileType
  /-- `self.file_nodes.path()`. -/
  rootPath : Str
  /-- `std::path::Path::starts_with` (component-wise). -/
  pathStartsWith : Str → Str → Bool
  /-- Modelled from the spec: `SearchCache::node_index_for_raw_path`
  (cache.rs, not under src/). -/
  nodeIndexForRawPath : Str → Option Nat
  /-- Modelled from the spec: `SearchCache::all_subnodes` (cache.rs, not under
  src/); no result when the token is cancelled. -/
  allSubnodes : Nat → Token → Option (List Nat)

/-- `filter_nodes`: keeps nodes passing the predicate; the cancellation check
at `i = 0` makes a cancelled call with a nonempty input return no result. -/
def filterNodes (tok : Token) (nodes : List Nat) (pred : Nat → Bool) : Option (List Nat) :=
  if tok ∧ nodes ≠ [] then none else some (nodes.filter pred)

/-- `intersect_in_place`. -/
def intersectInPlace (tok : Token) (values rhs : List Nat) : Option (List Nat) :=
  if values = [] then some values
  else if tok then none
  else some (values.filter (· ∈ rhs))

/-- `difference_in_place`. -/
def differenceInPlace (tok : Token) (values rhs : List Nat) : Option (List Nat) :=
  if values = [] ∨ rhs = [] then some values
  else if tok then none
  else some (values.filter (· ∉ rhs))

/-- The pure content of `union_in_place`: append each right-hand element not
seen before, preserving first-seen order. -/
def firstSeenUnion (values l : List Nat) : List Nat :=
  l.foldl (fun vs x => if x ∈ vs then vs else vs ++ [x]) values

/-- `union_in_place`. -/
def unionInPlace (tok : Token) (values rhs : List Nat) : Option (List Nat) :=
  if rhs = [] then some values
  else if tok then none
  else some (firstSeenUnion values rhs)

/-- ASCII lowercasing (`to_ascii_lowercase`). -/
def asciiLower (c : Char) : Char :=
  if 'A' ≤ c ∧ c ≤ 'Z' then Char.ofNat (c.toNat + 32) else c

/-- `normalize_extension`: trim whitespace, strip leading dots, lowercase;
`None` when nothing remains. -/
def normalizeExtension (raw : Str) : Option Str :=
  let trimmed := (((raw.dropWhile (·.isWhitespace)).reverse.dropWhile
      (·.isWhitespace)).reverse).dropWhile (· = '.')
  if trimmed = [] then none else some (trimmed.map asciiLower)

/-- `normalize_extensions`: the extension set (a `HashSet`, modelled as a
deduplicated list) from a list argument or from the raw value. -/
def normalizeExtensions (a : FilterArgument) : List Str :=
  let items :=
    match a.kind with
    | .list vs => vs
    | _ => [a.raw]
  items.foldl
    (fun acc item =>
      match normalizeExtension item with
      | some e => if e ∈ acc then acc else acc ++ [e]
      | none => acc)
    []

/-- `extension_of`: the lowercased text after the last dot, if any and
nonempty. -/
def extensionOf (name : Str) : Option Str :=
  match (name.reverse.findIdx? (· = '.')).map (fun i => name.length - 1 - i) with
  | none => none
  | some pos =>
    if pos + 1 ≥ name.length then none
    else some ((name.drop (pos + 1)).map asciiLower)

/-- `wildcard_to_regex`: anchored regex with `*` ↦ `.*`, `?` ↦ `.`, other
characters escaped through `regex::escape`. -/
def wildcardToRegex (env : EvalEnv) (pattern : Str) : Str :=
  '^' :: (pattern.flatMap (fun ch =>
    if ch = '*' then ['.', '*']
    else if ch = '?' then ['.']
    else env.regexEscape [ch])) ++ ['$']

/-- Lexicographic order on strings, for `sort_unstable_by_key` on names. -/
def strLe : Str → Str → Bool
  | [], _ => true
  | _ :: _, [] => false
  | a :: as, b :: bs => if a < b then true else if b < a then false else strLe as bs

/-- The loop of `execute_matchers`: the first matcher queries the name pool,
later matchers scan the children of the running node set. -/
def executeMatchersGo (env : EvalEnv) (tok : Token) :
    List SegmentMatcher → Option (List Nat) → EvalResult
  | [], nodeSet =>
    match nodeSet with
    | some ns => .ok ns
    | none => .cancelled
  | m :: rest, nodeSet =>
    match nodeSet with
    | some nodes =>
      if tok ∧ nodes ≠ [] then .cancelled
      else
        let newSet := nodes.flatMap (fun node =>
          let childMatches := (env.childrenOf node).filterMap (fun child =>
            let name := env.nodeName child
            if env.matcherMatches m name then some (name, child) else none)
          (childMatches.mergeSort (fun x y => strLe x.1 y.1)).map (·.2))
        executeMatchersGo env tok rest (some newSet)
    | none =>
      match env.poolSearch m tok with
      | none => .cancelled
      | some names =>
        if tok ∧ names ≠ [] then .cancelled
        else executeMatchersGo env tok rest (some (names.flatMap env.nameIndex))

/-- `execute_matchers`. -/
def executeMatchers (env : EvalEnv) (matchers : List SegmentMatcher) (tok : Token) :
    EvalResult :=
  if matchers = [] then .ok []
  else executeMatchersGo env tok matchers none

/-- `SearchCache::evaluate_regex`. -/
def evaluateRegex (env : EvalEnv) (pattern : Str) (opts : SearchOptions) (tok : Token) :
    EvalResult :=
  match env.regexBuild pattern opts.caseInsensitive with
  | .error _ => .err "Invalid regex pattern"
  | .ok r => executeMatchers env [.regex r] tok

/-- `SearchCache::evaluate_phrase`. -/
def evaluatePhrase (env : EvalEnv) (text : Str) (opts : SearchOptions) (tok : Token) :
    EvalResult :=
  let segments := env.segmentation text
  if segments = [] then .err "Unprocessable term"
  else
    match env.buildMatchers segments opts with
    | .error _ => .err "Invalid regex pattern"
    | .ok matchers => executeMatchers env matchers tok

/-- `SearchCache::evaluate_word`. -/
def evaluateWord (env : EvalEnv) (text : Str) (opts : SearchOptions) (tok : Token) :
    EvalResult :=
  if '*' ∈ text ∨ '?' ∈ text then evaluateRegex env (wildcardToRegex env text) opts tok
  else evaluatePhrase env text opts tok

/-- The `base` computed by `SearchCache::evaluate_type_filter`: the phrase
evaluation of the argument, or `search_empty`. -/
def evaluateTypeFilterBase (env : EvalEnv) (argument : Option FilterArgument)
    (opts : SearchOptions) (tok : Token) : EvalResult :=
  match argument with
  | some a => evaluatePhrase env a.raw opts tok
  | none =>
    match env.searchEmpty tok with
    | some ns => .ok ns
    | none => .cancelled

/-- `SearchCache::evaluate_type_filter`, continued: filter the base set by the
node file type. -/
def evaluateTypeFilter (env : EvalEnv) (ft : NodeFileType) (argument : Option FilterArgument)
    (opts : SearchOptions) (tok : Token) : EvalResult :=
  match evaluateTypeFilterBase env argument opts tok with
  | .ok nodes =>
    match filterNodes tok nodes (fun i => env.fileTypeHint i == ft) with
    | some f => .ok f
    | none => .cancelled
  | other => other

/-- `SearchCache::evaluate_extension_filter`. -/
def evaluateExtensionFilter (env : EvalEnv) (a : FilterArgument) (tok : Token) : EvalResult :=
  if normalizeExtensions a = [] then .err "ext: requires non-empty extensions"
  else
    match env.searchEmpty tok with
    | none => .cancelled
    | some nodes =>
      match filterNodes tok nodes (fun i =>
          (env.fileTypeHint i == NodeFileType.file)
            && ((extensionOf (env.nodeName i)).map ((normalizeExtensions a).contains ·)).getD
              false) with
      | some f => .ok f
      | none => .cancelled

/-- `SearchCache::resolve_query_path`. -/
def resolveQueryPath (env : EvalEnv) (raw : Str) : Except String Str :=
  if env.pathStartsWith raw env.rootPath then .ok raw
  else .error "Query path is outside of the indexed root"

/-- `SearchCache::evaluate_parent_filter`.  Note: the token parameter is
`_token` in the source — cancellation is never checked here. -/
def evaluateParentFilter (env : EvalEnv) (a : FilterArgument) (_tok : Token) : EvalResult :=
  match resolveQueryPath env a.raw with
  | .error m => .err m
  | .ok target =>
    match env.nodeIndexForRawPath target with
    | none => .err "Parent filter is not found in file system"
    | some t => .ok (env.childrenOf t)

/-- `SearchCache::evaluate_infolder_filter`. -/
def evaluateInfolderFilter (env : EvalEnv) (a : FilterArgument) (tok : Token) : EvalResult :=
  match resolveQueryPath env a.raw with
  | .error m => .err m
  | .ok target =>
    match env.nodeIndexForRawPath target with
    | none => .err "Parent filter is not found in file system"
    | some t =>
      match env.allSubnodes t tok with
      | some ns => .ok ns
      | none => .cancelled

/-- `SearchCache::evaluate_filter`: only file/folder/ext/parent/infolder are
implemented; every other filter kind is rejected with "not supported yet". -/
def evaluateFilter (env : EvalEnv) (f : Filter) (opts : SearchOptions) (tok : Token) :
    EvalResult :=
  match f.kind with
  | .file => evaluateTypeFilter env .file f.argument opts tok
  | .folder => evaluateTypeFilter env .dir f.argument opts tok
  | .ext =>
    match f.argument with
    | none => .err "ext: requires at least one extension"
    | some a => evaluateExtensionFilter env a tok
  | .parent =>
    match f.argument with
    | none => .err "parent: requires a folder path"
    | some a => evaluateParentFilter env a tok
  | .inFolder =>
    match f.argument with
    | none => .err "infolder: requires a folder path"
    | some a => evaluateInfolderFilter env a tok
  | _ => .err "Filter is not supported yet"

/-- `SearchCache::evaluate_term`. -/
def evaluateTerm (env : EvalEnv) (t : Term) (opts : SearchOptions) (tok : Token) :
    EvalResult :=
  match t with
  | .word text => evaluateWord env text opts tok
  | .phrase text => evaluatePhrase env text opts tok
  | .regex pattern => evaluateRegex env pattern opts tok
  | .filter f => evaluateFilter env f opts tok

/-- The universe used by `evaluate_not`: the running base set if there is one,
else `search_empty`. -/
def notUniverse (env : EvalEnv) (base : Option (List Nat)) (tok : Token) :
    Option (List Nat) :=
  match base with
  | some current => some current
  | none => env.searchEmpty tok

mutual

/-- `SearchCache::evaluate_expr`. -/
def evaluateExpr (env : EvalEnv) (e : Expr) (opts : SearchOptions) (tok : Token) :
    EvalResult :=
  match e with
  | .empty =>
    match env.searchEmpty tok with
    | some nodes => .ok nodes
    | none => .cancelled
  | .term t => evaluateTerm env t opts tok
  | .not inner => evaluateNot env inner none opts tok
  | .and parts => evaluateAndGo env parts none opts tok
  | .or parts => evaluateOrGo env parts [] opts tok
termination_by (sizeOf e, 1)

/-- `SearchCache::evaluate_not`. -/
def evaluateNot (env : EvalEnv) (inner : Expr) (base : Option (List Nat))
    (opts : SearchOptions) (tok : Token) : EvalResult :=
  match notUniverse env base tok with
  | none => .cancelled
  | some univ =>
    match evaluateExpr env inner opts tok with
    | .ok negated =>
      match differenceInPlace tok univ negated with
      | some d => .ok d
      | none => .cancelled
    | .cancelled => .cancelled
    | .err m => .err m
    | .panic m => .panic m
termination_by (sizeOf inner, 2)

/-- The loop of `SearchCache::evaluate_and`; `current.expect(..)` at the end
panics when no part ever ran. -/
def evaluateAndGo (env : EvalEnv) (parts : List Expr) (current : Option (List Nat))
    (opts : SearchOptions) (tok : Token) : EvalResult :=
  match parts with
  | [] =>
    match current with
    | some v => .ok v
    | none => .panic "at least one part in AND expression"
  | part :: rest =>
    match part with
    | .not inner =>
      match evaluateNot env inner current opts tok with
      | .ok x => evaluateAndGo env rest (some x) opts tok
      | .cancelled => .cancelled
      | .err m => .err m
      | .panic m => .panic m
    | other =>
      match evaluateExpr env other opts tok with
      | .ok nodes =>
        match current with
        | some existing =>
          match intersectInPlace tok existing nodes with
          | some inter => evaluateAndGo env rest (some inter) opts tok
          | none => .cancelled
        | none => evaluateAndGo env rest (some nodes) opts tok
      | .cancelled => .cancelled
      | .err m => .err m
      | .panic m => .panic m
termination_by (sizeOf parts, 0)

/-- The loop of `SearchCache::evaluate_or`. -/
def evaluateOrGo (env : EvalEnv) (parts : List Expr) (acc : List Nat)
    (opts : SearchOptions) (tok : Token) : EvalResult :=
  match parts with
  | [] => .ok acc
  | part :: rest =>
    match evaluateExpr env part opts tok with
    | .ok nodes =>
      match unionInPlace tok acc nodes with
      | some u => evaluateOrGo env rest u opts tok
      | none => .cancelled
    | .cancelled => .cancelled
    | .err m => .err m
    | .panic m => .panic m
termination_by (sizeOf parts, 0)

end

/-! ## Structural predicates on expressions -/
/-- Every `And` node in the tree has at least one operand. -/
def noEmptyAnd : Expr → Bool
  | .empty => true
  | .term _ => true
  | .not inner => noEmptyAnd inner
  | .and parts => !parts.isEmpty && parts.attach.all (fun x => noEmptyAnd x.1)
  | .or parts => parts.attach.all (fun x => noEmptyAnd x.1)
termination_by e => sizeOf e
decreasing_by
  all_goals simp_wf
  all_goals have := List.sizeOf_lt_of_mem x.2
  all_goals omega

/-- A concrete environment: two nodes (5 and 7), empty pool results, no
node-by-path resolution, cancellation-respecting external searches. -/
def trivialEnv : EvalEnv where
  searchEmpty := fun tok => if tok then none else some [5, 7]
  segmentation := fun s => [s]
  buildMatchers := fun segs _ => .ok (segs.map (fun s => .plain .substr s))
  regexBuild := fun _ _ => .ok ⟨0⟩
  regexEscape := fun s => s
  poolSearch := fun _ tok => if tok then none else some []
  nameIndex := fun _ => []
  childrenOf := fun _ => []
  nodeName := fun _ => []
  matcherMatches := fun _ _ => false
  fileTypeHint := fun _ => .unknown
  rootPath := []
  pathStartsWith := fun _ _ => false
  nodeIndexForRawPath := fun _ => none
  allSubnodes := fun _ tok => if tok then none else some []

/-! ## C5 — what a cancelled evaluator call can return -/
/-- A result that a cancelled call is allowed to produce: `Ok(None)` or an
input-validation error. -/
def CancelClean (r : EvalResult) : Prop :=
  r = .cancelled ∨ ∃ msg, r = .err msg

/-- Expressions whose evaluation under a cancelled token cannot slip past a
cancellation check: no `parent:` filter (it ignores the token), and no empty
`And`/`Or` operand lists (`And([])` panics, `Or([])` returns `Ok(Some([]))`
without ever consulting the token). -/
def cancelSafe : Expr → Bool
  | .empty => true
  | .term t =>
    match t with
    | .filter f => !(f.kind == FilterKind.parent)
    | _ => true
  | .not inner => cancelSafe inner
  | .and parts => !parts.isEmpty && parts.attach.all (fun x => cancelSafe x.1)
  | .or parts => !parts.isEmpty && parts.attach.all (fun x => cancelSafe x.1)
termination_by e => sizeOf e
decreasing_by
  all_goals simp_wf
  all_goals have := List.sizeOf_lt_of_mem x.2
  all_goals omega

/-- The environment of `trivialEnv` with a resolvable `parent:` path: node 3
with children `[9]`. -/
def parentEnv : EvalEnv :=
  { trivialEnv with
    pathStartsWith := fun _ _ => true
    nodeIndexForRawPath := fun _ => some 3
    childrenOf := fun _ => [9] }

/-! ## C2 — size filter semantics

The size-filter evaluation is not part of the included sources: query.rs's
`evaluate_filter` defers with "Filter ... is not supported yet" and the
`SearchCache::search` pipeline that the crate's extensive size-filter tests
exercise lives in the part of the crate that is not under the included
sources.  The semantics is therefore modelled from the spec (§4.8). -/
/-- Modelled from the spec: digits of a size literal to a number. -/
def digitsToNat (ds : Str) : Nat :=
  ds.foldl (fun acc c => acc * 10 + (c.toNat - 48)) 0

/-- Modelled from the spec: size units `b/k/m/g/t/p` (case-insensitive, with
the spelled-out IEC/SI forms all treated as IEC 1024-based); an empty unit
means bytes; anything else is an error. -/
def unitMultiplier (u : Str) : Except String Nat :=
  let ul := u.map asciiLower
  if ul = [] ∨ ul = ['b'] ∨ ul = "byte".toList ∨ ul = "bytes".toList then .ok 1
  else if ul = ['k'] ∨ ul = "kb".toList ∨ ul = "kib".toList
      ∨ ul = "kilobyte".toList ∨ ul = "kilobytes".toList then .ok 1024
  else if ul = ['m'] ∨ ul = "mb".toList ∨ ul = "mib".toList
      ∨ ul = "megabyte".toList ∨ ul = "megabytes".toList then .ok (1024 ^ 2)
  else if ul = ['g'] ∨ ul = "gb".toList ∨ ul = "gib".toList
      ∨ ul = "gigabyte".toList ∨ ul = "gigabytes".toList then .ok (1024 ^ 3)
  else if ul = ['t'] ∨ ul = "tb".toList ∨ ul = "tib".toList
      ∨ ul = "terabyte".toList ∨ ul = "terabytes".toList then .ok (1024 ^ 4)
  else if ul = ['p'] ∨ ul = "pb".toList ∨ ul = "pib".toList
      ∨ ul = "petabyte".toList ∨ ul = "petabytes".toList then .ok (1024 ^ 5)
  else .error "Unknown size unit"

/-- Modelled from the spec: a size literal — digits, an optional fraction, an
optional unit — to a byte count (fractions are scaled by the unit and
truncated). -/
def parseSizeValue (v : Str) : Except String Nat :=
  let ds := v.takeWhile (·.isDigit)
  let rest := v.dropWhile (·.isDigit)
  if ds = [] then .error "Invalid size value"
  else
    match rest with
    | '.' :: rest2 =>
      let fs := rest2.takeWhile (·.isDigit)
      let unit := rest2.dropWhile (·.isDigit)
      if fs = [] then .error "Invalid size value"
      else
        match unitMultiplier unit with
        | .error e => .error e
        | .ok mult => .ok (digitsToNat ds * mult + digitsToNat fs * mult / 10 ^ fs.length)
    | _ =>
      match unitMultiplier rest with
      | .error e => .error e
      | .ok mult => .ok (digitsToNat ds * mult)

/-- Modelled from the spec: the size keywords. -/
inductive SizeKeyword
  | empty
  | tiny
  | small
  | medium
  | large
  | huge
  | gigantic
  deriving Repr, DecidableEq

/-- Modelled from the spec: keyword spelling (case-insensitive;
`giant` = `gigantic`). -/
def parseSizeKeyword (u : Str) : Option SizeKeyword :=
  let ul := u.map asciiLower
  if ul = "empty".toList then some .empty
  else if ul = "tiny".toList then some .tiny
  else if ul = "small".toList then some .small
  else if ul = "medium".toList then some .medium
  else if ul = "large".toList then some .large
  else if ul = "huge".toList then some .huge
  else if ul = "gigantic".toList ∨ ul = "giant".toList then some .gigantic
  else none

/-- Modelled from the spec: the fixed byte ranges of the size keywords. -/
def sizeKeywordMatches : SizeKeyword → Nat → Bool
  | .empty => fun s => s = 0
  | .tiny => fun s => s ≤ 10 * 1024
  | .small => fun s => 10 * 1024 < s && s ≤ 100 * 1024
  | .medium => fun s => 100 * 1024 < s && s ≤ 1024 * 1024
  | .large => fun s => 1024 * 1024 < s && s ≤ 16 * 1024 * 1024
  | .huge => fun s => 16 * 1024 * 1024 < s && s ≤ 128 * 1024 * 1024
  | .gigantic => fun s => 128 * 1024 * 1024 < s

/-- Modelled from the spec: the comparison operators on byte counts. -/
def sizeCmpMatches (op : ComparisonOp) (v size : Nat) : Bool :=
  match op with
  | .gt => v < size
  | .ge => v ≤ size
  | .lt => size < v
  | .le => size ≤ v
  | .eq => size = v
  | .ne => size ≠ v

/-- Modelled from the spec: the predicate denoted by a `size:` filter
argument.  A bare value is equivalent to `=`; keywords map to their fixed
ranges; ranges are inclusive on both ends, open sides unbounded, and an
inverted range is an error; a keyword under a comparison operator is an
error. -/
def sizeFilterPredicate (a : FilterArgument) : Except String (Nat → Bool) :=
  match a.kind with
  | .comparison c =>
    match parseSizeKeyword c.value with
    | some _ => .error "Size keywords cannot be used with comparison operators"
    | none =>
      match parseSizeValue c.value with
      | .error e => .error e
      | .ok v => .ok (sizeCmpMatches c.op v)
  | .range r =>
    match r.start, r.stop with
    | some s1, some s2 =>
      match parseSizeValue s1, parseSizeValue s2 with
      | .ok v1, .ok v2 =>
        if v2 < v1 then .error "Range start must be less than or equal to the end"
        else .ok (fun size => v1 ≤ size && size ≤ v2)
      | .error e, _ => .error e
      | _, .error e => .error e
    | some s1, none =>
      match parseSizeValue s1 with
      | .error e => .error e
      | .ok v1 => .ok (fun size => v1 ≤ size)
    | none, some s2 =>
      match parseSizeValue s2 with
      | .error e => .error e
      | .ok v2 => .ok (fun size => size ≤ v2)
    | none, none => .error "Size filter requires a value"
  | _ =>
    match parseSizeKeyword a.raw with
    | some k => .ok (sizeKeywordMatches k)
    | none =>
      match parseSizeValue a.raw with
      | .error e => .error e
      | .ok v => .ok (sizeCmpMatches .eq v)

/-- Modelled from the spec: applying a `size:` filter to the sizes of the
(regular) files in the graph keeps exactly the matching ones. -/
def evaluateSizeFilter (a : FilterArgument) (sizes : List Nat) :
    Except String (List Nat) :=
  match sizeFilterPredicate a with
  | .error e => .error e
  | .ok pred => .ok (sizes.filter pred)

/-! ## Occurrences and `find_iter` (groundwork for the name-pool search
claims) -/
/-- `needle` occurs in `hay` at byte position `d`. -/
def occAt (hay needle : List Nat) (d : Nat) : Prop :=
  needle <+: hay.drop d

/-! ## Structure of a pool built by repeated `push` -/
/-- The bytes appended to the fresh pool by pushing `names` in order. -/
def poolTail : List (List Nat) → List Nat
  | [] => []
  | n :: rest => n ++ 0 :: poolTail rest

/-! ## A pool where the parallel search disagrees with the sequential one -/
/-- 1022 filler bytes, then `a\0a\0a`: the needle `a\0a` (which contains a
NUL byte) matches at offsets 1022 and 1024, straddling the 1024-byte chunk
boundary used by `par_search_substr`. -/
def boundaryPool : NamePool := ⟨List.replicate 1022 98 ++ [97, 0, 97, 0, 97]⟩

open NamePool

/-! ## Basic name-pool lemmas -/
theorem foldl_push_pool (p : NamePool) (names : List (List Nat)) :
    (names.foldl (fun q n => (q.push n).2) p).pool
      = p.pool ++ (names.map (· ++ [0])).flatten := by
  induction names generalizing p with
  | nil => simp
  | cons n rest ih =>
    simp only [List.foldl_cons]
    rw [ih]
    simp [NamePool.push, List.append_assoc]

theorem pushAll_pool (names : List (List Nat)) :
    (NamePool.pushAll names).pool = 0 :: (names.map (· ++ [0])).flatten := by
  simp [NamePool.pushAll, foldl_push_pool, NamePool.new]

theorem pushAll_len (names : List (List Nat)) :
    (NamePool.pushAll names).len = 1 + (names.map (fun n => n.length + 1)).sum := by
  simp [NamePool.len, pushAll_pool, Function.comp_def]
  omega

/-! ## C1 — `NamePool::push` does not deduplicate -/
/-- C1, counterexample.  Pushing the one-byte name `"a"` twice into a fresh
pool: the claim predicts that the second push returns the existing handle `1`
and appends nothing (so `len = 3`, one distinct string plus leading NUL plus
one trailing NUL).  In fact the second push returns a fresh offset `3` and the
pool has length `5`: both copies are stored. -/
theorem push_dedup_counterexample :
    ((NamePool.new.push [97]).2.push [97]).1 = 3
      ∧ (NamePool.new.push [97]).1 = 1
      ∧ ((NamePool.new.push [97]).2.push [97]).2.len = 5 := by
  decide

/-- C1, amended.  `push` never deduplicates: every call appends the name
followed by a NUL and returns the previous pool length as the handle, so after
pushing any multiset of strings `P.len()` equals one (the leading NUL) plus
the sum over ALL pushes (not distinct ones) of each name's length plus one
trailing NUL. -/
theorem push_appends_always :
    (∀ (p : NamePool) (n : List Nat), p.push n = (p.len, ⟨p.pool ++ n ++ [0]⟩))
      ∧ ∀ names : List (List Nat),
          (NamePool.pushAll names).len = 1 + (names.map (fun n => n.length + 1)).sum := by
  exact ⟨fun p n => rfl, pushAll_len⟩

/-! ## C8 — no 2^20 length check on interned names -/
/-- C8, counterexample.  A name of `2^20 + 1` bytes (longer than the claimed
`2^20` limit) is accepted everywhere: `push` stores it (the pool grows to
`2^20 + 3` bytes) and `NameAndParent::new` succeeds, since the only length
restriction in the code is the `usize → u32` conversion. -/
theorem overlong_name_counterexample :
    (NamePool.new.push (List.replicate (2 ^ 20 + 1) 97)).2.len = 2 ^ 20 + 3
      ∧ (nameAndParentNew (List.replicate (2 ^ 20 + 1) 97) none).isSome := by
  constructor
  · show ([0] ++ List.replicate (2 ^ 20 + 1) 97 ++ [0]).length = 2 ^ 20 + 3
    rw [List.length_append, List.length_append, List.length_replicate]
    norm_num
  · rw [nameAndParentNew, if_pos (by rw [List.length_replicate]; norm_num)]
    rfl

/-- C8, amended.  Pushing never rejects a name of any length, and constructing
an interned `NameAndParent` fails (panics on the `usize → u32` conversion)
exactly when the name is longer than `u32::MAX = 2^32 - 1` bytes — not
`2^20`. -/
theorem overlong_name_threshold :
    (∀ (s : List Nat) (parent : Option Nat),
        (nameAndParentNew s parent).isSome ↔ s.length ≤ 2 ^ 32 - 1)
      ∧ ∀ (p : NamePool) (n : List Nat),
          (p.push n).2.len = p.len + n.length + 1 ∧ (p.push n).1 = p.len := by
  refine ⟨fun s parent => ?_, fun p n => ?_⟩
  · simp only [nameAndParentNew]
    split <;> simp_all
  · simp [NamePool.push, NamePool.len]
    omega

/-! ## C9 — `SlabNode::add_children` preserves the no-duplicates invariant -/
theorem addChildren_nodup {l : List Nat} (h : l.Nodup) (c : Nat) :
    (addChildren l c).Nodup := by
  unfold addChildren
  split
  · exact h
  · simp_all [List.nodup_append]

/-- C9.  An index already present is not appended again, and any sequence of
`add_children` calls starting from a duplicate-free children list leaves it
duplicate-free. -/
theorem addChildren_no_duplicates (l : List Nat) (c : Nat) (cs : List Nat) :
    (c ∈ l → addChildren l c = l)
      ∧ (l.Nodup → (cs.foldl addChildren l).Nodup) := by
  constructor
  · intro hc
    simp [addChildren, hc]
  · intro hl
    induction cs generalizing l with
    | nil => exact hl
    | cons d rest ih => exact ih _ (addChildren_nodup hl d)

/-- C9, witness: concrete instantiation of both hypotheses. -/
theorem addChildren_no_duplicates_witness :
    (addChildren [1, 2] 1 = [1, 2]) ∧ ([2, 5, 3].foldl addChildren [1, 2]).Nodup := by
  have h := addChildren_no_duplicates [1, 2] 1 [2, 5, 3]
  exact ⟨h.1 (by decide), h.2 (by decide)⟩

/-! ## C7 — scope of the home-directory expansion -/
/-- C7.  The `~` pre-pass: a leading bare `~`, `~/…` or `~\…` is rewritten to
HOME in word terms; words starting with `~` followed by anything else
(`~user`) or not starting with `~` are unchanged; quoted phrases and regex
patterns are unchanged; filters are expanded only when path-typed
(`parent:`, `infolder:`, `nosubfolders:`), in which case the argument is
rewritten by the same leading-tilde rule. -/
theorem home_expansion_scope (home rest w p r : Str) (c : Char) (k : FilterKind)
    (a : FilterArgument) :
    (expandTerm (.word ('~' :: '/' :: rest)) home = .word (home ++ '/' :: rest))
      ∧ (expandTerm (.word ('~' :: '\\' :: rest)) home = .word (home ++ '\\' :: rest))
      ∧ (expandTerm (.word ['~']) home = .word home)
      ∧ (c ≠ '/' → c ≠ '\\' → expandTerm (.word ('~' :: c :: rest)) home
            = .word ('~' :: c :: rest))
      ∧ (w.head? ≠ some '~' → expandTerm (.word w) home = .word w)
      ∧ (expandTerm (.phrase p) home = .phrase p)
      ∧ (expandTerm (.regex r) home = .regex r)
      ∧ (filterRequiresPath k = false →
          expandTerm (.filter ⟨k, some a⟩) home = .filter ⟨k, some a⟩)
      ∧ ((k = .parent ∨ k = .inFolder ∨ k = .noSubfolders) →
          expandTerm (.filter ⟨k, some a⟩) home
              = .filter ⟨k, some (expandFilterArgument a home)⟩
            ∧ (expandFilterArgument a home).raw = expandText a.raw home) := by
  refine ⟨?_, ?_, ?_, ?_, ?_, rfl, rfl, ?_, ?_⟩
  · simp [expandTerm, expandText, expandHomeStart]
  · simp [expandTerm, expandText, expandHomeStart]
  · simp [expandTerm, expandText, expandHomeStart]
  · intro h1 h2
    simp [expandTerm, expandText, expandHomeStart, h1, h2]
  · intro hw
    cases w with
    | nil => simp [expandTerm, expandText, expandHomeStart]
    | cons c0 t =>
      have : c0 ≠ '~' := by simpa using hw
      simp [expandTerm, expandText, expandHomeStart, this]
  · intro hk
    simp [expandTerm, expandFilter, hk]
  · intro hk
    have hreq : filterRequiresPath k = true := by
      rcases hk with h | h | h <;> simp [h, filterRequiresPath]
    exact ⟨by simp [expandTerm, expandFilter, hreq], rfl⟩

theorem noEmptyAnd_and {parts : List Expr} (h : noEmptyAnd (.and parts) = true) :
    parts ≠ [] ∧ ∀ p ∈ parts, noEmptyAnd p = true := by
  rw [noEmptyAnd] at h
  simp only [Bool.and_eq_true, List.all_eq_true, Bool.not_eq_true'] at h
  have h1 : parts ≠ [] := by
    intro hemp
    rw [hemp] at h
    simp at h
  exact ⟨h1, fun p hp => h.2 ⟨p, hp⟩ (List.mem_attach _ _)⟩

theorem noEmptyAnd_or {parts : List Expr} (h : noEmptyAnd (.or parts) = true) :
    ∀ p ∈ parts, noEmptyAnd p = true := by
  rw [noEmptyAnd] at h
  simp only [List.all_eq_true] at h
  exact fun p hp => h ⟨p, hp⟩ (List.mem_attach _ _)

/-! ## C10 — the evaluator panics on an empty `And` and nowhere else -/
theorem executeMatchersGo_ne_panic (env : EvalEnv) (tok : Token)
    (ms : List SegmentMatcher) (nodeSet : Option (List Nat)) (m : String) :
    executeMatchersGo env tok ms nodeSet ≠ .panic m := by
  induction ms generalizing nodeSet with
  | nil => cases nodeSet <;> simp [executeMatchersGo]
  | cons hd tl ih =>
    cases nodeSet with
    | some nodes =>
      simp only [executeMatchersGo]
      split
      · simp
      · exact ih _
    | none =>
      simp only [executeMatchersGo]
      cases env.poolSearch hd tok with
      | none => simp
      | some names =>
        simp only
        split
        · simp
        · exact ih _

theorem executeMatchers_ne_panic (env : EvalEnv) (ms : List SegmentMatcher) (tok : Token)
    (m : String) : executeMatchers env ms tok ≠ .panic m := by
  rw [executeMatchers]
  split
  · simp
  · exact executeMatchersGo_ne_panic env tok ms none m

theorem evaluateRegex_ne_panic (env : EvalEnv) (pattern : Str) (opts : SearchOptions)
    (tok : Token) (m : String) : evaluateRegex env pattern opts tok ≠ .panic m := by
  rw [evaluateRegex]
  cases env.regexBuild pattern opts.caseInsensitive with
  | error e => simp
  | ok r => exact executeMatchers_ne_panic env [.regex r] tok m

theorem evaluatePhrase_ne_panic (env : EvalEnv) (text : Str) (opts : SearchOptions)
    (tok : Token) (m : String) : evaluatePhrase env text opts tok ≠ .panic m := by
  rw [evaluatePhrase]
  split
  · simp
  · cases env.buildMatchers (env.segmentation text) opts with
    | error e => simp
    | ok matchers => exact executeMatchers_ne_panic env matchers tok m

theorem evaluateWord_ne_panic (env : EvalEnv) (text : Str) (opts : SearchOptions)
    (tok : Token) (m : String) : evaluateWord env text opts tok ≠ .panic m := by
  rw [evaluateWord]
  split
  · exact evaluateRegex_ne_panic env _ opts tok m
  · exact evaluatePhrase_ne_panic env text opts tok m

theorem evaluateTypeFilterBase_ne_panic (env : EvalEnv) (argument : Option FilterArgument)
    (opts : SearchOptions) (tok : Token) (m : String) :
    evaluateTypeFilterBase env argument opts tok ≠ .panic m := by
  rw [evaluateTypeFilterBase.eq_def]
  cases argument with
  | some a => exact evaluatePhrase_ne_panic env a.raw opts tok m
  | none =>
    simp only
    split <;> simp

theorem evaluateTypeFilter_ne_panic (env : EvalEnv) (ft : NodeFileType)
    (argument : Option FilterArgument) (opts : SearchOptions) (tok : Token) (m : String) :
    evaluateTypeFilter env ft argument opts tok ≠ .panic m := by
  rw [evaluateTypeFilter.eq_def]
  cases hb : evaluateTypeFilterBase env argument opts tok with
  | panic m' => exact absurd hb (evaluateTypeFilterBase_ne_panic env argument opts tok m')
  | err m' => simp
  | cancelled => simp
  | ok nodes => split <;> split <;> simp

theorem evaluateExtensionFilter_ne_panic (env : EvalEnv) (a : FilterArgument) (tok : Token)
    (m : String) : evaluateExtensionFilter env a tok ≠ .panic m := by
  rw [evaluateExtensionFilter.eq_def]
  split
  · simp
  · split
    · simp
    · split <;> simp

theorem evaluateParentFilter_ne_panic (env : EvalEnv) (a : FilterArgument) (tok : Token)
    (m : String) : evaluateParentFilter env a tok ≠ .panic m := by
  rw [evaluateParentFilter.eq_def]
  split
  · simp
  · split <;> simp

theorem evaluateInfolderFilter_ne_panic (env : EvalEnv) (a : FilterArgument) (tok : Token)
    (m : String) : evaluateInfolderFilter env a tok ≠ .panic m := by
  rw [evaluateInfolderFilter.eq_def]
  split
  · simp
  · split
    · simp
    · split <;> simp

theorem evaluateFilter_ne_panic (env : EvalEnv) (f : Filter) (opts : SearchOptions)
    (tok : Token) (m : String) : evaluateFilter env f opts tok ≠ .panic m := by
  rw [evaluateFilter.eq_def]
  cases f.kind with
  | file => exact evaluateTypeFilter_ne_panic env .file f.argument opts tok m
  | folder => exact evaluateTypeFilter_ne_panic env .dir f.argument opts tok m
  | ext =>
    cases f.argument with
    | none => simp
    | some a => exact evaluateExtensionFilter_ne_panic env a tok m
  | parent =>
    cases f.argument with
    | none => simp
    | some a => exact evaluateParentFilter_ne_panic env a tok m
  | inFolder =>
    cases f.argument with
    | none => simp
    | some a => exact evaluateInfolderFilter_ne_panic env a tok m
  | noSubfolders => simp
  | size => simp
  | dateModified => simp
  | dateCreated => simp

theorem evaluateTerm_ne_panic (env : EvalEnv) (t : Term) (opts : SearchOptions)
    (tok : Token) (m : String) : evaluateTerm env t opts tok ≠ .panic m := by
  cases t with
  | word text => exact evaluateWord_ne_panic env text opts tok m
  | phrase text => exact evaluatePhrase_ne_panic env text opts tok m
  | regex pattern => exact evaluateRegex_ne_panic env pattern opts tok m
  | filter f => exact evaluateFilter_ne_panic env f opts tok m

theorem evaluateNot_ne_panic (env : EvalEnv) (inner : Expr) (base : Option (List Nat))
    (opts : SearchOptions) (tok : Token)
    (hinner : ∀ m', evaluateExpr env inner opts tok ≠ .panic m') (m : String) :
    evaluateNot env inner base opts tok ≠ .panic m := by
  rw [evaluateNot]
  cases notUniverse env base tok with
  | none => simp
  | some univ =>
    simp only
    cases hx : evaluateExpr env inner opts tok with
    | panic m' => exact absurd hx (hinner m')
    | err m' => simp
    | cancelled => simp
    | ok negated => split <;> (try split) <;> simp_all

theorem evaluateOrGo_ne_panic (env : EvalEnv) (parts : List Expr) (acc : List Nat)
    (opts : SearchOptions) (tok : Token)
    (h : ∀ p ∈ parts, ∀ m', evaluateExpr env p opts tok ≠ .panic m') (m : String) :
    evaluateOrGo env parts acc opts tok ≠ .panic m := by
  induction parts generalizing acc with
  | nil => simp [evaluateOrGo]
  | cons part rest ih =>
    rw [evaluateOrGo]
    cases hx : evaluateExpr env part opts tok with
    | panic m' => exact absurd hx (h part (by simp) m')
    | err m' => simp
    | cancelled => simp
    | ok nodes =>
      simp only
      cases unionInPlace tok acc nodes with
      | none => simp
      | some u => exact ih u (fun p hp => h p (by simp [hp]))

theorem evaluateAndGo_nil (env : EvalEnv) (current : Option (List Nat))
    (opts : SearchOptions) (tok : Token) :
    evaluateAndGo env [] current opts tok
      = match current with
        | some v => .ok v
        | none => .panic "at least one part in AND expression" := by
  rw [evaluateAndGo.eq_def]

theorem evaluateAndGo_cons_not (env : EvalEnv) (inner : Expr) (rest : List Expr)
    (current : Option (List Nat)) (opts : SearchOptions) (tok : Token) :
    evaluateAndGo env (.not inner :: rest) current opts tok
      = match evaluateNot env inner current opts tok with
        | .ok x => evaluateAndGo env rest (some x) opts tok
        | .cancelled => .cancelled
        | .err m => .err m
        | .panic m => .panic m := by
  rw [evaluateAndGo.eq_def]

theorem evaluateAndGo_cons_other (env : EvalEnv) (part : Expr) (rest : List Expr)
    (current : Option (List Nat)) (opts : SearchOptions) (tok : Token)
    (h : ∀ x, part ≠ Expr.not x) :
    evaluateAndGo env (part :: rest) current opts tok
      = match evaluateExpr env part opts tok with
        | .ok nodes =>
          (match current with
           | some existing =>
             (match intersectInPlace tok existing nodes with
              | some inter => evaluateAndGo env rest (some inter) opts tok
              | none => .cancelled)
           | none => evaluateAndGo env rest (some nodes) opts tok)
        | .cancelled => .cancelled
        | .err m => .err m
        | .panic m => .panic m := by
  rw [evaluateAndGo.eq_def]
  cases part with
  | empty => simp
  | term t => simp
  | not x => exact absurd rfl (h x)
  | and ps => simp
  | or ps => simp

theorem andGoOther_ne_panic (env : EvalEnv) (part : Expr) (rest : List Expr)
    (current : Option (List Nat)) (opts : SearchOptions) (tok : Token) (m : String)
    (hother : ∀ x, part ≠ Expr.not x)
    (hpart : ∀ m', evaluateExpr env part opts tok ≠ .panic m')
    (hrec : ∀ v, evaluateAndGo env rest (some v) opts tok ≠ .panic m) :
    evaluateAndGo env (part :: rest) current opts tok ≠ .panic m := by
  rw [evaluateAndGo_cons_other env part rest current opts tok hother]
  cases hx : evaluateExpr env part opts tok with
  | panic m' => exact absurd hx (hpart m')
  | err m' => simp
  | cancelled => simp
  | ok nodes =>
    simp only
    cases current with
    | some existing =>
      split
      · split
        · exact hrec _
        · simp
      · simp_all
    | none => exact hrec nodes

theorem evaluateAndGo_ne_panic (env : EvalEnv) (parts : List Expr)
    (current : Option (List Nat)) (opts : SearchOptions) (tok : Token)
    (h1 : ∀ p ∈ parts, ∀ m', evaluateExpr env p opts tok ≠ .panic m')
    (h2 : ∀ inner, Expr.not inner ∈ parts →
        ∀ m', evaluateExpr env inner opts tok ≠ .panic m')
    (hc : current.isSome ∨ parts ≠ []) (m : String) :
    evaluateAndGo env parts current opts tok ≠ .panic m := by
  induction parts generalizing current with
  | nil =>
    rcases hc with hc | hc
    · cases current with
      | some v => simp [evaluateAndGo_nil]
      | none => simp at hc
    · simp at hc
  | cons part rest ih =>
    have hrec : ∀ v : List Nat, evaluateAndGo env rest (some v) opts tok ≠ .panic m :=
      fun v => ih (some v) (fun p hp => h1 p (by simp [hp]))
        (fun i hi => h2 i (by simp [hi])) (by simp)
    cases part with
    | not inner =>
      rw [evaluateAndGo_cons_not]
      cases hx : evaluateNot env inner current opts tok with
      | panic m' =>
        exact absurd hx (evaluateNot_ne_panic env inner current opts tok
          (h2 inner (by simp)) m')
      | err m' => simp
      | cancelled => simp
      | ok x => exact hrec x
    | empty =>
      exact andGoOther_ne_panic env _ rest current opts tok m (by intro x h; cases h)
        (h1 _ (by simp)) hrec
    | term t =>
      exact andGoOther_ne_panic env _ rest current opts tok m (by intro x h; cases h)
        (h1 _ (by simp)) hrec
    | and ps =>
      exact andGoOther_ne_panic env _ rest current opts tok m (by intro x h; cases h)
        (h1 _ (by simp)) hrec
    | or ps =>
      exact andGoOther_ne_panic env _ rest current opts tok m (by intro x h; cases h)
        (h1 _ (by simp)) hrec

theorem noEmptyAnd_no_panic :
    ∀ (n : Nat) (e : Expr), sizeOf e ≤ n → noEmptyAnd e = true →
      ∀ (env : EvalEnv) (opts : SearchOptions) (tok : Token) (m : String),
        evaluateExpr env e opts tok ≠ .panic m := by
  intro n
  induction n using Nat.strong_induction_on with
  | _ n ih =>
    intro e hsize hne env opts tok m
    cases e with
    | empty =>
      rw [evaluateExpr]
      cases env.searchEmpty tok <;> simp
    | term t =>
      rw [evaluateExpr]
      exact evaluateTerm_ne_panic env t opts tok m
    | not inner =>
      rw [evaluateExpr]
      refine evaluateNot_ne_panic env inner none opts tok (fun m' => ?_) m
      have hs : sizeOf inner < n := by
        have : sizeOf inner < sizeOf (Expr.not inner) := by simp
        omega
      exact ih (sizeOf inner) hs inner (Nat.le_refl _) (by rwa [noEmptyAnd] at hne)
        env opts tok m'
    | and parts =>
      rw [evaluateExpr]
      obtain ⟨hne', hall⟩ := noEmptyAnd_and hne
      have hsub : ∀ p ∈ parts, ∀ m', evaluateExpr env p opts tok ≠ .panic m' := by
        intro p hp m'
        have hlt : sizeOf p < n := by
          have h1 := List.sizeOf_lt_of_mem hp
          have : sizeOf (Expr.and parts) = 1 + sizeOf parts := by simp
          omega
        exact ih (sizeOf p) hlt p (Nat.le_refl _) (hall p hp) env opts tok m'
      refine evaluateAndGo_ne_panic env parts none opts tok hsub (fun inner hi m' => ?_)
        (Or.inr hne') m
      have hlt : sizeOf inner < n := by
        have h1 := List.sizeOf_lt_of_mem hi
        have h2 : sizeOf inner < sizeOf (Expr.not inner) := by simp
        have : sizeOf (Expr.and parts) = 1 + sizeOf parts := by simp
        omega
      have hni : noEmptyAnd inner = true := by
        have := hall _ hi
        rwa [noEmptyAnd] at this
      exact ih (sizeOf inner) hlt inner (Nat.le_refl _) hni env opts tok m'
    | or parts =>
      rw [evaluateExpr]
      have hall := noEmptyAnd_or hne
      refine evaluateOrGo_ne_panic env parts [] opts tok (fun p hp m' => ?_) m
      have hlt : sizeOf p < n := by
        have h1 := List.sizeOf_lt_of_mem hp
        have : sizeOf (Expr.or parts) = 1 + sizeOf parts := by simp
        omega
      exact ih (sizeOf p) hlt p (Nat.le_refl _) (hall p hp) env opts tok m'

/-- C10.  Evaluating `And([])` always panics with the message of the
`expect` on the accumulated result, and this is the evaluator's only panic:
whenever every `And` node of the input has at least one operand, no panic is
reachable. -/
theorem and_empty_operands_panics (env : EvalEnv) (opts : SearchOptions) (tok : Token)
    (e : Expr) :
    evaluateExpr env (.and []) opts tok = .panic "at least one part in AND expression"
      ∧ (noEmptyAnd e = true →
          ∀ m, evaluateExpr env e opts tok ≠ .panic m) := by
  constructor
  · rw [evaluateExpr, evaluateAndGo]
  · intro hne m
    exact noEmptyAnd_no_panic (sizeOf e) e (Nat.le_refl _) hne env opts tok m

/-- C10, witness: the panic at a concrete environment, and no panic for a
concrete expression satisfying the precondition. -/
theorem and_empty_operands_panics_witness :
    evaluateExpr trivialEnv (.and []) ⟨false⟩ false
        = .panic "at least one part in AND expression"
      ∧ ∀ m, evaluateExpr trivialEnv .empty ⟨false⟩ false ≠ .panic m := by
  have h := and_empty_operands_panics trivialEnv ⟨false⟩ false .empty
  exact ⟨h.1, h.2 (by rw [noEmptyAnd])⟩

theorem cancelSafe_and {parts : List Expr} (h : cancelSafe (.and parts) = true) :
    parts ≠ [] ∧ ∀ p ∈ parts, cancelSafe p = true := by
  rw [cancelSafe] at h
  simp only [Bool.and_eq_true, List.all_eq_true, Bool.not_eq_true'] at h
  have h1 : parts ≠ [] := by
    intro hemp
    rw [hemp] at h
    simp at h
  exact ⟨h1, fun p hp => h.2 ⟨p, hp⟩ (List.mem_attach _ _)⟩

theorem cancelSafe_or {parts : List Expr} (h : cancelSafe (.or parts) = true) :
    parts ≠ [] ∧ ∀ p ∈ parts, cancelSafe p = true := by
  rw [cancelSafe] at h
  simp only [Bool.and_eq_true, List.all_eq_true, Bool.not_eq_true'] at h
  have h1 : parts ≠ [] := by
    intro hemp
    rw [hemp] at h
    simp at h
  exact ⟨h1, fun p hp => h.2 ⟨p, hp⟩ (List.mem_attach _ _)⟩

theorem executeMatchers_cancelled {env : EvalEnv}
    (hps : ∀ mt, env.poolSearch mt true = none)
    (ms : List SegmentMatcher) (hms : ms ≠ []) :
    executeMatchers env ms true = .cancelled := by
  rw [executeMatchers, if_neg hms]
  cases ms with
  | nil => exact absurd rfl hms
  | cons m rest => simp [executeMatchersGo, hps m]

theorem evaluatePhrase_cancelled {env : EvalEnv}
    (hps : ∀ mt, env.poolSearch mt true = none)
    (hbm : ∀ segs opts ms, env.buildMatchers segs opts = .ok ms → segs ≠ [] → ms ≠ [])
    (text : Str) (opts : SearchOptions) :
    CancelClean (evaluatePhrase env text opts true) := by
  rw [evaluatePhrase]
  split
  · exact Or.inr ⟨_, rfl⟩
  · rename_i hsegs
    cases hb : env.buildMatchers (env.segmentation text) opts with
    | error e => exact Or.inr ⟨_, rfl⟩
    | ok ms =>
      exact Or.inl (executeMatchers_cancelled hps ms (hbm _ _ _ hb hsegs))

theorem evaluateRegex_cancelled {env : EvalEnv}
    (hps : ∀ mt, env.poolSearch mt true = none)
    (pattern : Str) (opts : SearchOptions) :
    CancelClean (evaluateRegex env pattern opts true) := by
  rw [evaluateRegex]
  cases env.regexBuild pattern opts.caseInsensitive with
  | error e => exact Or.inr ⟨_, rfl⟩
  | ok r => exact Or.inl (executeMatchers_cancelled hps [.regex r] (by simp))

theorem evaluateWord_cancelled {env : EvalEnv}
    (hps : ∀ mt, env.poolSearch mt true = none)
    (hbm : ∀ segs opts ms, env.buildMatchers segs opts = .ok ms → segs ≠ [] → ms ≠ [])
    (text : Str) (opts : SearchOptions) :
    CancelClean (evaluateWord env text opts true) := by
  rw [evaluateWord]
  split
  · exact evaluateRegex_cancelled hps _ opts
  · exact evaluatePhrase_cancelled hps hbm text opts

theorem evaluateTypeFilterBase_cancelled {env : EvalEnv}
    (hps : ∀ mt, env.poolSearch mt true = none)
    (hse : env.searchEmpty true = none)
    (hbm : ∀ segs opts ms, env.buildMatchers segs opts = .ok ms → segs ≠ [] → ms ≠ [])
    (argument : Option FilterArgument) (opts : SearchOptions) :
    CancelClean (evaluateTypeFilterBase env argument opts true) := by
  rw [evaluateTypeFilterBase.eq_def]
  cases argument with
  | some a => exact evaluatePhrase_cancelled hps hbm a.raw opts
  | none =>
    simp only [hse]
    exact Or.inl rfl

theorem evaluateTypeFilter_cancelled {env : EvalEnv}
    (hps : ∀ mt, env.poolSearch mt true = none)
    (hse : env.searchEmpty true = none)
    (hbm : ∀ segs opts ms, env.buildMatchers segs opts = .ok ms → segs ≠ [] → ms ≠ [])
    (ft : NodeFileType) (argument : Option FilterArgument) (opts : SearchOptions) :
    CancelClean (evaluateTypeFilter env ft argument opts true) := by
  rw [evaluateTypeFilter.eq_def]
  rcases @evaluateTypeFilterBase_cancelled env hps hse hbm argument opts with
    hb | ⟨msg, hb⟩
  · rw [hb]
    exact Or.inl rfl
  · rw [hb]
    exact Or.inr ⟨msg, rfl⟩

theorem evaluateExtensionFilter_cancelled {env : EvalEnv}
    (hse : env.searchEmpty true = none)
    (a : FilterArgument) :
    CancelClean (evaluateExtensionFilter env a true) := by
  rw [evaluateExtensionFilter.eq_def]
  split
  · exact Or.inr ⟨_, rfl⟩
  · rw [hse]
    exact Or.inl rfl

theorem evaluateInfolderFilter_cancelled {env : EvalEnv}
    (hsub : ∀ i, env.allSubnodes i true = none)
    (a : FilterArgument) :
    CancelClean (evaluateInfolderFilter env a true) := by
  rw [evaluateInfolderFilter.eq_def]
  cases resolveQueryPath env a.raw with
  | error m => exact Or.inr ⟨m, rfl⟩
  | ok target =>
    simp only
    cases env.nodeIndexForRawPath target with
    | none => exact Or.inr ⟨_, rfl⟩
    | some t =>
      simp only [hsub t]
      exact Or.inl rfl

theorem evaluateFilter_cancelled {env : EvalEnv}
    (hps : ∀ mt, env.poolSearch mt true = none)
    (hse : env.searchEmpty true = none)
    (hsub : ∀ i, env.allSubnodes i true = none)
    (hbm : ∀ segs opts ms, env.buildMatchers segs opts = .ok ms → segs ≠ [] → ms ≠ [])
    (f : Filter) (opts : SearchOptions) (hk : f.kind ≠ FilterKind.parent) :
    CancelClean (evaluateFilter env f opts true) := by
  rw [evaluateFilter.eq_def]
  cases hkind : f.kind with
  | file => exact evaluateTypeFilter_cancelled hps hse hbm .file f.argument opts
  | folder => exact evaluateTypeFilter_cancelled hps hse hbm .dir f.argument opts
  | ext =>
    cases f.argument with
    | none => exact Or.inr ⟨_, rfl⟩
    | some a => exact evaluateExtensionFilter_cancelled hse a
  | parent => exact absurd hkind hk
  | inFolder =>
    cases f.argument with
    | none => exact Or.inr ⟨_, rfl⟩
    | some a => exact evaluateInfolderFilter_cancelled hsub a
  | noSubfolders => exact Or.inr ⟨_, rfl⟩
  | size => exact Or.inr ⟨_, rfl⟩
  | dateModified => exact Or.inr ⟨_, rfl⟩
  | dateCreated => exact Or.inr ⟨_, rfl⟩

theorem evaluateTerm_cancelled {env : EvalEnv}
    (hps : ∀ mt, env.poolSearch mt true = none)
    (hse : env.searchEmpty true = none)
    (hsub : ∀ i, env.allSubnodes i true = none)
    (hbm : ∀ segs opts ms, env.buildMatchers segs opts = .ok ms → segs ≠ [] → ms ≠ [])
    (t : Term) (opts : SearchOptions)
    (ht : ∀ f, t = .filter f → f.kind ≠ FilterKind.parent) :
    CancelClean (evaluateTerm env t opts true) := by
  cases t with
  | word text => exact evaluateWord_cancelled hps hbm text opts
  | phrase text => exact evaluatePhrase_cancelled hps hbm text opts
  | regex pattern => exact evaluateRegex_cancelled hps pattern opts
  | filter f => exact evaluateFilter_cancelled hps hse hsub hbm f opts (ht f rfl)

theorem evaluateNot_base_none_cancelled {env : EvalEnv}
    (hse : env.searchEmpty true = none)
    (inner : Expr) (opts : SearchOptions) :
    evaluateNot env inner none opts true = .cancelled := by
  rw [evaluateNot]
  simp [notUniverse, hse]

theorem cancelSafe_cancelled {env : EvalEnv}
    (hps : ∀ mt, env.poolSearch mt true = none)
    (hse : env.searchEmpty true = none)
    (hsub : ∀ i, env.allSubnodes i true = none)
    (hbm : ∀ segs opts ms, env.buildMatchers segs opts = .ok ms → segs ≠ [] → ms ≠ []) :
    ∀ (n : Nat) (e : Expr), sizeOf e ≤ n → cancelSafe e = true →
      ∀ opts : SearchOptions, CancelClean (evaluateExpr env e opts true) := by
  intro n
  induction n using Nat.strong_induction_on with
  | _ n ih =>
    intro e hsize hcs opts
    cases e with
    | empty =>
      rw [evaluateExpr]
      rw [hse]
      exact Or.inl rfl
    | term t =>
      rw [evaluateExpr]
      refine evaluateTerm_cancelled hps hse hsub hbm t opts ?_
      intro f hf
      rw [hf, cancelSafe] at hcs
      simpa using hcs
    | not inner =>
      rw [evaluateExpr]
      exact Or.inl (evaluateNot_base_none_cancelled hse inner opts)
    | and parts =>
      rw [evaluateExpr]
      obtain ⟨hne, hall⟩ := cancelSafe_and hcs
      cases parts with
      | nil => exact absurd rfl hne
      | cons part rest =>
        have hfirst : CancelClean (evaluateExpr env part opts true) := by
          have hlt : sizeOf part < n := by
            have h1 : sizeOf part < sizeOf (Expr.and (part :: rest)) := by
              simp
              omega
            omega
          exact ih (sizeOf part) hlt part (Nat.le_refl _) (hall part (by simp)) opts
        cases part with
        | not inner =>
          rw [evaluateAndGo_cons_not]
          rw [evaluateNot_base_none_cancelled hse inner opts]
          exact Or.inl rfl
        | empty =>
          rw [evaluateAndGo_cons_other env _ rest none opts true (by intro x h; cases h)]
          rcases hfirst with hf | ⟨msg, hf⟩ <;> rw [hf]
          · exact Or.inl rfl
          · exact Or.inr ⟨msg, rfl⟩
        | term t =>
          rw [evaluateAndGo_cons_other env _ rest none opts true (by intro x h; cases h)]
          rcases hfirst with hf | ⟨msg, hf⟩ <;> rw [hf]
          · exact Or.inl rfl
          · exact Or.inr ⟨msg, rfl⟩
        | and ps =>
          rw [evaluateAndGo_cons_other env _ rest none opts true (by intro x h; cases h)]
          rcases hfirst with hf | ⟨msg, hf⟩ <;> rw [hf]
          · exact Or.inl rfl
          · exact Or.inr ⟨msg, rfl⟩
        | or ps =>
          rw [evaluateAndGo_cons_other env _ rest none opts true (by intro x h; cases h)]
          rcases hfirst with hf | ⟨msg, hf⟩ <;> rw [hf]
          · exact Or.inl rfl
          · exact Or.inr ⟨msg, rfl⟩
    | or parts =>
      rw [evaluateExpr]
      obtain ⟨hne, hall⟩ := cancelSafe_or hcs
      cases parts with
      | nil => exact absurd rfl hne
      | cons part rest =>
        have hfirst : CancelClean (evaluateExpr env part opts true) := by
          have hlt : sizeOf part < n := by
            have h1 : sizeOf part < sizeOf (Expr.or (part :: rest)) := by
              simp
              omega
            omega
          exact ih (sizeOf part) hlt part (Nat.le_refl _) (hall part (by simp)) opts
        rw [evaluateOrGo]
        rcases hfirst with hf | ⟨msg, hf⟩ <;> rw [hf]
        · exact Or.inl rfl
        · exact Or.inr ⟨msg, rfl⟩

/-- C5, counterexample.  With a cancelled token the evaluator does not always
return `Ok(None)`: an `ext:` filter with no argument fails its input
validation first and returns an `Err`; a resolvable `parent:` filter never
consults the token and returns `Ok(Some(children))`; an empty `Or` returns
`Ok(Some([]))`. -/
theorem cancelled_not_always_none :
    evaluateExpr trivialEnv (.term (.filter ⟨.ext, none⟩)) ⟨false⟩ true
        = .err "ext: requires at least one extension"
      ∧ evaluateExpr parentEnv (.term (.filter ⟨.parent, some ⟨['/'], .bare⟩⟩)) ⟨false⟩ true
        = .ok [9]
      ∧ evaluateExpr trivialEnv (.or []) ⟨false⟩ true = .ok [] := by
  refine ⟨?_, ?_, ?_⟩
  · rw [evaluateExpr]
    rfl
  · rw [evaluateExpr]
    rfl
  · rw [evaluateExpr, evaluateOrGo]

/-- C5, amended.  For every expression with no `parent:` filter and no empty
`And`/`Or` operand list, a call under a cancelled token returns `Ok(None)` or
an input-validation `Err` — never a (partial) result set `Ok(Some(..))` and
never a panic.  This assumes the parts of the crate outside query.rs respect
cancellation as the spec requires (`search_empty`, the pool searches and
`all_subnodes` return no result on a cancelled token, and segment matchers
built from a nonempty segmentation are nonempty). -/
theorem cancelled_returns_none_or_error (env : EvalEnv)
    (hps : ∀ mt, env.poolSearch mt true = none)
    (hse : env.searchEmpty true = none)
    (hsub : ∀ i, env.allSubnodes i true = none)
    (hbm : ∀ segs opts ms, env.buildMatchers segs opts = .ok ms → segs ≠ [] → ms ≠ [])
    (e : Expr) (he : cancelSafe e = true) (opts : SearchOptions) :
    evaluateExpr env e opts true = .cancelled
      ∨ ∃ msg, evaluateExpr env e opts true = .err msg :=
  cancelSafe_cancelled hps hse hsub hbm (sizeOf e) e (Nat.le_refl _) he opts

/-- C5, witness for the amended theorem at a concrete environment and
expression. -/
theorem cancelled_returns_none_or_error_witness :
    evaluateExpr trivialEnv .empty ⟨false⟩ true = .cancelled
      ∨ ∃ msg, evaluateExpr trivialEnv .empty ⟨false⟩ true = .err msg :=
  cancelled_returns_none_or_error trivialEnv (fun _ => rfl) rfl (fun _ => rfl)
    (fun segs _ ms h hs => by
      injection h with h2
      subst h2
      simpa using hs)
    .empty (by rw [cancelSafe]) ⟨false⟩

/-! ## C6 — `Or` accumulates a deduplicated union in first-seen order -/
theorem unionInPlace_not_cancelled (values rhs : List Nat) :
    unionInPlace false values rhs = some (firstSeenUnion values rhs) := by
  rw [unionInPlace]
  split
  · rename_i hr
    rw [hr]
    rfl
  · rfl

theorem firstSeenUnion_append (acc l1 l2 : List Nat) :
    firstSeenUnion acc (l1 ++ l2) = firstSeenUnion (firstSeenUnion acc l1) l2 := by
  simp [firstSeenUnion, List.foldl_append]

theorem firstSeenUnion_nodup {acc : List Nat} (h : acc.Nodup) (l : List Nat) :
    (firstSeenUnion acc l).Nodup := by
  induction l generalizing acc with
  | nil => exact h
  | cons d rest ih =>
    rw [firstSeenUnion, List.foldl_cons]
    by_cases hd : d ∈ acc
    · simpa [hd] using ih h
    · have : (acc ++ [d]).Nodup := by simp [List.nodup_append, h, hd]
      simpa [hd] using ih this

theorem mem_firstSeenUnion (acc l : List Nat) (x : Nat) :
    x ∈ firstSeenUnion acc l ↔ x ∈ acc ∨ x ∈ l := by
  induction l generalizing acc with
  | nil => simp [firstSeenUnion]
  | cons d rest ih =>
    rw [firstSeenUnion, List.foldl_cons]
    by_cases hd : d ∈ acc
    · rw [if_pos hd]
      rw [show List.foldl (fun vs x => if x ∈ vs then vs else vs ++ [x]) acc rest
            = firstSeenUnion acc rest from rfl, ih]
      constructor
      · rintro (hx | hx)
        · exact Or.inl hx
        · exact Or.inr (by simp [hx])
      · rintro (hx | hx)
        · exact Or.inl hx
        · rcases List.mem_cons.mp hx with rfl | hx
          · exact Or.inl hd
          · exact Or.inr hx
    · rw [if_neg hd]
      rw [show List.foldl (fun vs x => if x ∈ vs then vs else vs ++ [x]) (acc ++ [d]) rest
            = firstSeenUnion (acc ++ [d]) rest from rfl, ih]
      simp only [List.mem_append, List.mem_singleton, List.mem_cons]
      tauto

theorem foldl_firstSeenUnion_flatten (rs : List (List Nat)) (acc : List Nat) :
    rs.foldl firstSeenUnion acc = firstSeenUnion acc rs.flatten := by
  induction rs generalizing acc with
  | nil => simp [firstSeenUnion]
  | cons r rest ih =>
    rw [List.foldl_cons, ih, List.flatten_cons, firstSeenUnion_append]

theorem evaluateOrGo_ok (env : EvalEnv) (opts : SearchOptions) {parts : List Expr}
    {results : List (List Nat)}
    (hev : List.Forall₂ (fun p l => evaluateExpr env p opts false = .ok l) parts results)
    (acc : List Nat) :
    evaluateOrGo env parts acc opts false = .ok (results.foldl firstSeenUnion acc) := by
  induction hev generalizing acc with
  | nil => rw [evaluateOrGo]; rfl
  | cons hpl hrest ih =>
    rw [evaluateOrGo, hpl]
    simp only [unionInPlace_not_cancelled, List.foldl_cons]
    exact ih _

/-- C6.  If every operand of an `Or` evaluates (without error or cancellation)
to a result list, the evaluator returns the fold of `union_in_place` over the
operands: each element of an operand's result is appended **only if not seen
before**, i.e. the concatenation deduplicated in first-appearance order, with
no duplicate indices in the final vector and exactly the union as its
members. -/
theorem or_union_dedup (env : EvalEnv) (opts : SearchOptions) (parts : List Expr)
    (results : List (List Nat))
    (hev : List.Forall₂ (fun p l => evaluateExpr env p opts false = .ok l) parts results) :
    evaluateExpr env (.or parts) opts false = .ok (firstSeenUnion [] results.flatten)
      ∧ (firstSeenUnion [] results.flatten).Nodup
      ∧ ∀ x, x ∈ firstSeenUnion [] results.flatten ↔ x ∈ results.flatten := by
  refine ⟨?_, firstSeenUnion_nodup (by simp) _, fun x => ?_⟩
  · rw [evaluateExpr, evaluateOrGo_ok env opts hev [], foldl_firstSeenUnion_flatten]
  · rw [mem_firstSeenUnion]
    simp

/-- C6, witness: two operands both returning `[5, 7]`; the union is `[5, 7]`
once, deduplicated. -/
theorem or_union_dedup_witness :
    evaluateExpr trivialEnv (.or [.empty, .empty]) ⟨false⟩ false = .ok [5, 7]
      ∧ ([5, 7] : List Nat).Nodup := by
  have hemp : evaluateExpr trivialEnv .empty ⟨false⟩ false = .ok [5, 7] := by
    rw [evaluateExpr]
    rfl
  have h := or_union_dedup trivialEnv ⟨false⟩ [.empty, .empty] [[5, 7], [5, 7]]
    (by exact List.Forall₂.cons hemp (List.Forall₂.cons hemp List.Forall₂.nil))
  refine ⟨?_, by decide⟩
  have h1 := h.1
  rwa [show firstSeenUnion [] ([[5, 7], [5, 7]] : List (List Nat)).flatten = [5, 7] from rfl]
    at h1

/-- C2.  Against files of sizes `{0, 1024, 1025}`: `size:=1kb` keeps only the
1024-byte file, `size:>1kb` only the 1025-byte file, `size:<=1kb` the 0- and
1024-byte files, `size:empty` only the 0-byte file; a bare `size:1kb`
evaluates exactly like `size:=1kb`; the inverted range `size:10kb..1kb` is an
error. -/
theorem size_filter_semantics :
    evaluateSizeFilter ⟨['1', 'k', 'b'], .comparison ⟨.eq, ['1', 'k', 'b']⟩⟩ [0, 1024, 1025]
        = .ok [1024]
      ∧ evaluateSizeFilter ⟨['1', 'k', 'b'], .comparison ⟨.gt, ['1', 'k', 'b']⟩⟩ [0, 1024, 1025]
        = .ok [1025]
      ∧ evaluateSizeFilter ⟨['1', 'k', 'b'], .comparison ⟨.le, ['1', 'k', 'b']⟩⟩ [0, 1024, 1025]
        = .ok [0, 1024]
      ∧ evaluateSizeFilter ⟨"empty".toList, .bare⟩ [0, 1024, 1025] = .ok [0]
      ∧ evaluateSizeFilter ⟨['1', 'k', 'b'], .bare⟩ [0, 1024, 1025]
        = evaluateSizeFilter ⟨['1', 'k', 'b'], .comparison ⟨.eq, ['1', 'k', 'b']⟩⟩ [0, 1024, 1025]
      ∧ evaluateSizeFilter
          ⟨"10kb..1kb".toList,
            .range ⟨some ['1', '0', 'k', 'b'], some ['1', 'k', 'b'], .dots⟩⟩ [0, 1024, 1025]
        = .error "Range start must be less than or equal to the end" := by
  refine ⟨?_, ?_, ?_, ?_, ?_, ?_⟩ <;> rfl

/-- C7, witness: all of the hypotheses above discharged at concrete inputs. -/
theorem home_expansion_scope_witness :
    (expandTerm (.word ('~' :: 'u' :: ['s'])) ['/', 'h'] = .word ('~' :: 'u' :: ['s']))
      ∧ (expandTerm (.word ['d']) ['/', 'h'] = .word ['d'])
      ∧ (expandTerm (.filter ⟨.ext, some ⟨['~'], .bare⟩⟩) ['/', 'h']
          = .filter ⟨.ext, some ⟨['~'], .bare⟩⟩)
      ∧ (expandTerm (.filter ⟨.parent, some ⟨['~'], .bare⟩⟩) ['/', 'h']
          = .filter ⟨.parent, some (expandFilterArgument ⟨['~'], .bare⟩ ['/', 'h'])⟩) := by
  have h := home_expansion_scope ['/', 'h'] ['s'] ['d'] [] [] 'u' .ext ⟨['~'], .bare⟩
  have h2 := home_expansion_scope ['/', 'h'] ['s'] ['d'] [] [] 'u' .parent ⟨['~'], .bare⟩
  refine ⟨h.2.2.2.1 (by decide) (by decide), h.2.2.2.2.1 (by decide), ?_, ?_⟩
  · exact h.2.2.2.2.2.2.2.1 (by decide)
  · exact (h2.2.2.2.2.2.2.2.2 (Or.inl rfl)).1

theorem occAt_zero {hay needle : List Nat} : occAt hay needle 0 ↔ needle <+: hay := by
  simp [occAt]

theorem occAt_drop {hay needle : List Nat} {k d : Nat} :
    occAt (hay.drop k) needle d ↔ occAt hay needle (k + d) := by
  unfold occAt
  rw [List.drop_drop]

theorem occAt_lt_length {hay needle : List Nat} {d : Nat} (hne : needle ≠ [])
    (h : occAt hay needle d) : d < hay.length := by
  rcases h with ⟨t, ht⟩
  by_contra hge
  push_neg at hge
  rw [List.drop_eq_nil_of_le hge] at ht
  have h0 := congrArg List.length ht
  simp only [List.length_append, List.length_nil] at h0
  exact hne (List.length_eq_zero.mp (by omega))

theorem occAt_add_length_le {hay needle : List Nat} {d : Nat} (hne : needle ≠ [])
    (h : occAt hay needle d) : d + needle.length ≤ hay.length := by
  have hd := occAt_lt_length hne h
  rcases h with ⟨t, ht⟩
  have h0 := congrArg List.length ht
  simp only [List.length_append, List.length_drop] at h0
  omega

theorem occAt_getElem {hay needle : List Nat} {d k : Nat}
    (h : occAt hay needle d) (hk : k < needle.length) :
    hay[d + k]? = needle[k]? := by
  rcases h with ⟨t, ht⟩
  have h1 : hay[d + k]? = (hay.drop d)[k]? := by
    rw [List.getElem?_drop]
  rw [h1, ← ht, List.getElem?_append_left hk]

theorem findIterGo_zero {needle hay : List Nat} {pos : Nat} :
    findIterGo needle 0 hay pos = [] := rfl

theorem findIterGo_succ_nil {needle : List Nat} {fuel pos : Nat} :
    findIterGo needle (fuel + 1) [] pos
      = if needle.isPrefixOf [] then
          pos :: findIterGo needle fuel (([] : List Nat).drop needle.length)
            (pos + needle.length)
        else [] := rfl

theorem findIterGo_succ_cons {needle : List Nat} {fuel pos : Nat} {b : Nat} {t : List Nat} :
    findIterGo needle (fuel + 1) (b :: t) pos
      = if needle.isPrefixOf (b :: t) then
          pos :: findIterGo needle fuel ((b :: t).drop needle.length) (pos + needle.length)
        else findIterGo needle fuel t (pos + 1) := rfl

theorem findIterGo_sound {needle : List Nat} (hne : needle ≠ []) :
    ∀ (fuel : Nat) (hay : List Nat) (pos x : Nat),
      x ∈ findIterGo needle fuel hay pos → ∃ d, x = pos + d ∧ occAt hay needle d := by
  intro fuel
  induction fuel with
  | zero => intro hay pos x hx; rw [findIterGo_zero] at hx; simp at hx
  | succ fuel ih =>
    intro hay pos x hx
    cases hay with
    | nil =>
      have hno : ¬ needle.isPrefixOf [] = true := by
        intro h
        exact hne (by simpa using List.isPrefixOf_iff_prefix.mp h)
      rw [findIterGo_succ_nil, if_neg hno] at hx
      simp at hx
    | cons b t =>
      rw [findIterGo_succ_cons] at hx
      split at hx
      · rename_i hpre
        rcases List.mem_cons.mp hx with rfl | hx
        · exact ⟨0, by simp, occAt_zero.mpr (List.isPrefixOf_iff_prefix.mp hpre)⟩
        · obtain ⟨d, rfl, hocc⟩ := ih _ _ _ hx
          exact ⟨needle.length + d, by omega, occAt_drop.mp hocc⟩
      · obtain ⟨d, rfl, hocc⟩ := ih _ _ _ hx
        refine ⟨1 + d, by omega, ?_⟩
        exact occAt_drop.mp (show occAt ((b :: t).drop 1) needle d from hocc)

theorem findIterGo_complete {needle : List Nat} (hne : needle ≠ []) :
    ∀ (fuel : Nat) (hay : List Nat) (pos : Nat), hay.length < fuel →
      ∀ d, occAt hay needle d →
        ∃ x ∈ findIterGo needle fuel hay pos, ∃ e, x = pos + e ∧ e ≤ d ∧ d < e + needle.length := by
  intro fuel
  induction fuel with
  | zero => intro hay pos hf; omega
  | succ fuel ih =>
    intro hay pos hf d hocc
    have hnlen : 0 < needle.length := List.length_pos.mpr hne
    cases hay with
    | nil =>
      have := occAt_lt_length hne hocc
      simp at this
    | cons b t =>
      rw [findIterGo_succ_cons]
      split
      · rename_i hpre
        by_cases hd : d < needle.length
        · exact ⟨pos, by simp, 0, by simp, by omega⟩
        · push_neg at hd
          have hocc' : occAt ((b :: t).drop needle.length) needle (d - needle.length) := by
            rw [occAt_drop]
            have heq : needle.length + (d - needle.length) = d := by omega
            rwa [heq]
          have hlen : needle.length ≤ (b :: t).length :=
            List.IsPrefix.length_le (List.isPrefixOf_iff_prefix.mp hpre)
          have hf' : ((b :: t).drop needle.length).length < fuel := by
            simp only [List.length_drop]
            simp at hf ⊢
            omega
          obtain ⟨x, hx, e, hxe, he1, he2⟩ := ih _ (pos + needle.length) hf' _ hocc'
          exact ⟨x, by simp [hx], needle.length + e, by omega, by omega, by omega⟩
      · rename_i hpre
        cases d with
        | zero => exact absurd (List.isPrefixOf_iff_prefix.mpr (occAt_zero.mp hocc)) hpre
        | succ d' =>
          have hocc' : occAt t needle d' := hocc
          have hf' : t.length < fuel := by
            simp at hf
            omega
          obtain ⟨x, hx, e, hxe, he1, he2⟩ := ih t (pos + 1) hf' d' hocc'
          exact ⟨x, hx, 1 + e, by omega, by omega, by omega⟩

theorem findIter_sound {hay needle : List Nat} (hne : needle ≠ []) {x : Nat}
    (hx : x ∈ findIter hay needle) : occAt hay needle x := by
  rw [findIter, if_neg (by simpa using hne)] at hx
  obtain ⟨d, rfl, h⟩ := findIterGo_sound hne _ hay 0 _ hx
  simpa using h

theorem findIter_complete {hay needle : List Nat} (hne : needle ≠ []) {d : Nat}
    (hocc : occAt hay needle d) :
    ∃ x ∈ findIter hay needle, x ≤ d ∧ d < x + needle.length := by
  rw [findIter, if_neg (by simpa using hne)]
  obtain ⟨x, hx, e, hxe, he1, he2⟩ :=
    findIterGo_complete hne (hay.length + 1) hay 0 (by omega) d hocc
  exact ⟨x, hx, by omega, by omega⟩

/-! ## Properties of `get`: trailing-NUL index and name extraction -/
theorem getElem_opt_mem {l : List Nat} {n a : Nat} (h : l[n]? = some a) : a ∈ l :=
  List.mem_iff_getElem?.mpr ⟨n, h⟩

theorem posOfNul_none_iff {l : List Nat} : posOfNul l = none ↔ 0 ∉ l := by
  induction l with
  | nil => simp [posOfNul]
  | cons b t ih =>
    rw [posOfNul]
    split
    · rename_i hb
      subst hb
      simp
    · rename_i hb
      simp [Option.map_eq_none', ih, hb, Ne.symm hb]

theorem posOfNul_some_spec {l : List Nat} {i : Nat} (h : posOfNul l = some i) :
    l[i]? = some 0 ∧ ∀ k, k < i → l[k]? ≠ some 0 := by
  induction l generalizing i with
  | nil => simp [posOfNul] at h
  | cons b t ih =>
    rw [posOfNul] at h
    split at h
    · rename_i hb
      subst hb
      cases h
      simp
    · rename_i hb
      rcases Option.map_eq_some'.mp h with ⟨j, hj, rfl⟩
      obtain ⟨h1, h2⟩ := ih hj
      constructor
      · simpa using h1
      · intro k hk
        cases k with
        | zero => simpa using hb
        | succ k' =>
          have := h2 k' (by omega)
          simpa using this

theorem posOfNul_some_lt {l : List Nat} {i : Nat} (h : posOfNul l = some i) :
    i < l.length := by
  have := (posOfNul_some_spec h).1
  exact (List.getElem?_eq_some.mp this).1

namespace NamePool

theorem endOf_past {p : NamePool} {x : Nat} (h : p.pool.length ≤ x) :
    p.endOf x = p.pool.length := by
  rw [endOf, List.drop_eq_nil_of_le h]
  rfl

theorem endOf_here {p : NamePool} {x : Nat} (h : p.pool[x]? = some 0) :
    p.endOf x = x := by
  have hx : x < p.pool.length := (List.getElem?_eq_some.mp h).1
  rw [endOf, List.drop_eq_getElem_cons hx]
  have h0 : p.pool[x] = 0 := by
    have := List.getElem?_eq_getElem hx
    rw [this] at h
    exact Option.some.inj h
  rw [posOfNul, if_pos h0]
  show 0 + x = x
  omega

theorem endOf_step {p : NamePool} {x : Nat} {c : Nat} (h : p.pool[x]? = some c)
    (hc : c ≠ 0) : p.endOf x = p.endOf (x + 1) := by
  have hx : x < p.pool.length := (List.getElem?_eq_some.mp h).1
  have h0 : p.pool[x] = c := by
    have := List.getElem?_eq_getElem hx
    rw [this] at h
    exact Option.some.inj h
  rw [endOf, endOf, List.drop_eq_getElem_cons hx, posOfNul, h0, if_neg hc]
  cases hpn : posOfNul (p.pool.drop (x + 1)) with
  | none => rfl
  | some i =>
    show i + 1 + x = i + (x + 1)
    omega

theorem endOf_le_len {p : NamePool} (x : Nat) : p.endOf x ≤ p.pool.length := by
  rw [endOf]
  cases hpn : posOfNul (p.pool.drop x) with
  | none => simp
  | some i =>
    have := posOfNul_some_lt hpn
    simp only [List.length_drop] at this
    show i + x ≤ p.pool.length
    omega

theorem endOf_ge {p : NamePool} {x : Nat} (h : x ≤ p.pool.length) : x ≤ p.endOf x := by
  rw [endOf]
  cases hpn : posOfNul (p.pool.drop x) with
  | none => exact h
  | some i => show x ≤ i + x; omega

theorem endOf_no_nul {p : NamePool} {x j : Nat} (h1 : x ≤ j) (h2 : j < p.endOf x) :
    p.pool[j]? ≠ some 0 := by
  rw [endOf] at h2
  cases hpn : posOfNul (p.pool.drop x) with
  | none =>
    intro hj
    have hmem : (0 : Nat) ∈ p.pool.drop x := by
      have hjl : j < p.pool.length := (List.getElem?_eq_some.mp hj).1
      have : (p.pool.drop x)[j - x]? = some 0 := by
        rw [List.getElem?_drop]
        have : x + (j - x) = j := by omega
        rw [this]
        exact hj
      exact getElem_opt_mem this
    exact (posOfNul_none_iff.mp hpn) hmem
  | some i =>
    rw [hpn] at h2
    have h2' : j < i + x := h2
    have hspec := (posOfNul_some_spec hpn).2 (j - x) (by omega)
    intro hj
    apply hspec
    rw [List.getElem?_drop]
    have : x + (j - x) = j := by omega
    rw [this]
    exact hj

theorem endOf_nul_or_len {p : NamePool} (x : Nat) :
    p.endOf x = p.pool.length ∨ p.pool[p.endOf x]? = some 0 := by
  rw [endOf]
  cases hpn : posOfNul (p.pool.drop x) with
  | none => exact Or.inl rfl
  | some i =>
    right
    have := (posOfNul_some_spec hpn).1
    rw [List.getElem?_drop] at this
    rwa [Nat.add_comm] at this

theorem endOf_congr {p : NamePool} {x y : Nat} (hxy : x ≤ y)
    (h : ∀ j, x ≤ j → j < y → p.pool[j]? ≠ some 0) : p.endOf x = p.endOf y := by
  induction y, hxy using Nat.le_induction with
  | base => rfl
  | succ y hy ih =>
    have h1 : p.endOf x = p.endOf y := ih (fun j hj1 hj2 => h j hj1 (by omega))
    rw [h1]
    by_cases hlen : p.pool.length ≤ y
    · rw [endOf_past hlen, endOf_past (by omega)]
    · push_neg at hlen
      have hget : p.pool[y]? = some p.pool[y] := List.getElem?_eq_getElem hlen
      have hc : p.pool[y] ≠ 0 := by
        intro h0
        exact h y hy (by omega) (by rw [hget, h0])
      exact endOf_step hget hc

theorem rposOfNul_append_nul (l : List Nat) : rposOfNul (l ++ [0]) = some l.length := by
  rw [rposOfNul, List.reverse_append]
  simp only [List.reverse_singleton, List.singleton_append, posOfNul, if_pos rfl]
  simp

theorem rposOfNul_append_nonzero {l : List Nat} {c : Nat} (hc : c ≠ 0) :
    rposOfNul (l ++ [c]) = rposOfNul l := by
  rw [rposOfNul, rposOfNul, List.reverse_append]
  simp only [List.reverse_singleton, List.singleton_append]
  rw [posOfNul, if_neg hc]
  cases hpn : posOfNul l.reverse with
  | none => simp [hpn]
  | some i =>
    have hi := posOfNul_some_lt hpn
    simp only [List.length_reverse] at hi
    simp only [hpn, Option.map_some', List.length_append, List.length_cons, List.length_nil]
    congr 1
    omega

theorem beginAt_after_nul {p : NamePool} {x : Nat} (h : p.pool[x]? = some 0) :
    p.beginAt (x + 1) = x + 1 := by
  have hx : x < p.pool.length := (List.getElem?_eq_some.mp h).1
  rw [beginAt, List.take_succ, h]
  simp only [Option.toList_some]
  rw [rposOfNul_append_nul]
  simp [List.length_take, Nat.min_eq_left (Nat.le_of_lt hx)]

theorem beginAt_step {p : NamePool} {x : Nat} {c : Nat} (h : p.pool[x]? = some c)
    (hc : c ≠ 0) : p.beginAt (x + 1) = p.beginAt x := by
  rw [beginAt, beginAt, List.take_succ, h]
  simp only [Option.toList_some]
  rw [rposOfNul_append_nonzero hc]

theorem beginAt_past {p : NamePool} {x : Nat} (h : p.pool.length ≤ x) :
    p.beginAt (x + 1) = p.beginAt x := by
  rw [beginAt, beginAt, List.take_of_length_le h, List.take_of_length_le (by omega)]

theorem beginAt_congr {p : NamePool} {x y : Nat} (hxy : x ≤ y)
    (h : ∀ j, x ≤ j → j < y → p.pool[j]? ≠ some 0) : p.beginAt x = p.beginAt y := by
  induction y, hxy using Nat.le_induction with
  | base => rfl
  | succ y hy ih =>
    have h1 : p.beginAt x = p.beginAt y := ih (fun j hj1 hj2 => h j hj1 (by omega))
    by_cases hlen : p.pool.length ≤ y
    · rw [beginAt_past hlen, h1]
    · push_neg at hlen
      have hget : p.pool[y]? = some p.pool[y] := List.getElem?_eq_getElem hlen
      have hc : p.pool[y] ≠ 0 := by
        intro h0
        exact h y hy (by omega) (by rw [hget, h0])
      rw [beginAt_step hget hc, h1]

theorem getPair_congr {p : NamePool} {x y : Nat} (hxy : x ≤ y)
    (h : ∀ j, x ≤ j → j < y → p.pool[j]? ≠ some 0) : p.getPair x = p.getPair y := by
  rw [getPair, getPair, endOf_congr hxy h, beginAt_congr hxy h]

end NamePool

/-- An occurrence of a NUL-free needle has no NUL bytes in its span. -/
theorem occ_no_nul_inside {p : NamePool} {needle : List Nat} {a j : Nat}
    (hnul : 0 ∉ needle) (ha : occAt p.pool needle a)
    (h1 : a ≤ j) (h2 : j < a + needle.length) : p.pool[j]? ≠ some 0 := by
  have hk : j - a < needle.length := by omega
  have := occAt_getElem ha hk
  have hj : a + (j - a) = j := by omega
  rw [hj] at this
  rw [this]
  intro hcontra
  exact hnul (getElem_opt_mem hcontra)

/-- Two overlapping occurrences of a NUL-free needle lie in the same name:
same trailing NUL, and `get` returns the same pair. -/
theorem occ_overlap_same_get {p : NamePool} {needle : List Nat} {a b : Nat}
    (hnul : 0 ∉ needle) (ha : occAt p.pool needle a)
    (hab : a ≤ b) (hover : b < a + needle.length) :
    p.getPair a = p.getPair b := by
  refine NamePool.getPair_congr hab (fun j hj1 hj2 => ?_)
  exact occ_no_nul_inside hnul ha hj1 (by omega)

theorem poolTail_flatten (names : List (List Nat)) :
    (names.map (· ++ [0])).flatten = poolTail names := by
  induction names with
  | nil => rfl
  | cons n rest ih => simp [poolTail, ih]

theorem pushAll_poolTail (names : List (List Nat)) :
    (NamePool.pushAll names).pool = 0 :: poolTail names := by
  rw [pushAll_pool, poolTail_flatten]

theorem posOfNul_nulfree_append {s v : List Nat} (hs : 0 ∉ s) :
    posOfNul (s ++ 0 :: v) = some s.length := by
  induction s with
  | nil => simp [posOfNul]
  | cons b t ih =>
    have hb : b ≠ 0 := fun h => hs (by rw [h]; exact List.mem_cons_self 0 t)
    rw [List.cons_append, posOfNul, if_neg hb,
      ih (fun h => hs (List.mem_cons_of_mem b h))]
    rfl

/-- Two NUL-free blocks closed by a NUL and aligned at the same start are
equal. -/
theorem nulfree_block_eq {s n v w : List Nat} (hs : 0 ∉ s) (hn : 0 ∉ n)
    (h : s ++ 0 :: v = n ++ 0 :: w) : s = n ∧ v = w := by
  have hlen : s.length = n.length := by
    have h1 := posOfNul_nulfree_append (v := v) hs
    have h2 := posOfNul_nulfree_append (v := w) hn
    rw [h, h2] at h1
    exact (Option.some.inj h1).symm
  obtain ⟨h1, h2⟩ := List.append_inj h hlen
  exact ⟨h1, (List.cons.inj h2).2⟩

/-- If `s` was pushed, the pool contains an occurrence of `\0 s \0`. -/
theorem occ_of_mem {names : List (List Nat)} {s : List Nat} (h : s ∈ names) :
    ∃ d, occAt (0 :: poolTail names) ([0] ++ s ++ [0]) d := by
  induction names with
  | nil => cases h
  | cons n rest ih =>
    rcases List.mem_cons.mp h with h | h
    · subst h
      refine ⟨0, ⟨poolTail rest, ?_⟩⟩
      simp [poolTail]
    · obtain ⟨d, hd⟩ := ih h
      refine ⟨n.length + 1 + d, ?_⟩
      unfold occAt
      have hsplit : 0 :: poolTail (n :: rest) = (0 :: n) ++ (0 :: poolTail rest) := by
        simp [poolTail]
      have hdrop : (0 :: poolTail (n :: rest)).drop (n.length + 1 + d)
          = (0 :: poolTail rest).drop d := by
        rw [hsplit]
        have h1 : n.length + 1 + d = (0 :: n).length + d := by simp
        rw [h1, List.drop_append]
      rw [hdrop]
      exact hd

/-- Conversely, every occurrence of `\0 s \0` in a pool of NUL-free names
pins `s` as one of the pushed names. -/
theorem mem_of_occ {names : List (List Nat)} {s : List Nat} {x : Nat}
    (hn : ∀ n ∈ names, (0:Nat) ∉ n) (hs : (0:Nat) ∉ s)
    (hocc : occAt (0 :: poolTail names) ([0] ++ s ++ [0]) x) : s ∈ names := by
  induction names generalizing x with
  | nil =>
    exfalso
    have hl := hocc.length_le
    simp only [poolTail, List.length_append, List.length_cons, List.length_nil,
      List.length_drop] at hl
    omega
  | cons n rest ih =>
    by_cases hx0 : x = 0
    · subst hx0
      obtain ⟨t, ht⟩ := hocc
      rw [List.drop_zero] at ht
      have ht' : (0:Nat) :: (s ++ 0 :: t) = 0 :: (n ++ 0 :: poolTail rest) := by
        have h1 : [0] ++ s ++ [0] ++ t = (0:Nat) :: (s ++ 0 :: t) := by simp
        rw [h1] at ht
        rw [ht]
        simp [poolTail]
      have heq := (List.cons.inj ht').2
      have := nulfree_block_eq hs (hn n (List.mem_cons_self n rest)) heq
      rw [this.1]
      exact List.mem_cons_self n rest
    · have hx : 1 ≤ x := Nat.one_le_iff_ne_zero.mpr hx0
      by_cases hxn : x ≤ n.length
      · exfalso
        have h0 := occAt_getElem hocc (k := 0) (by simp)
        rw [Nat.add_zero] at h0
        have h0' : ((0:Nat) :: poolTail (n :: rest))[x]? = some 0 := by
          rw [h0]
          show ((0:Nat) :: (s ++ [0]))[0]? = some 0
          simp
        have hx1 : x - 1 < n.length := by omega
        have hgx : ((0:Nat) :: poolTail (n :: rest))[x]? = n[x - 1]? := by
          have hxeq : x = (x - 1) + 1 := by omega
          rw [hxeq, List.getElem?_cons_succ]
          show (poolTail (n :: rest))[x - 1]? = n[x - 1]?
          rw [poolTail]
          rw [List.getElem?_append_left hx1]
        rw [hgx] at h0'
        exact hn n (List.mem_cons_self n rest) (getElem_opt_mem h0')
      · push_neg at hxn
        have hocc' : occAt (0 :: poolTail rest) ([0] ++ s ++ [0]) (x - (n.length + 1)) := by
          unfold occAt
          have hsplit : 0 :: poolTail (n :: rest) = (0 :: n) ++ (0 :: poolTail rest) := by
            simp [poolTail]
          have hdrop : (0 :: poolTail (n :: rest)).drop x
              = (0 :: poolTail rest).drop (x - (n.length + 1)) := by
            rw [hsplit]
            have h2 := @List.drop_append Nat (0 :: n) (0 :: poolTail rest)
              (x - (n.length + 1))
            simp only [List.length_cons] at h2
            have h3 : n.length + 1 + (x - (n.length + 1)) = x := by omega
            rw [h3] at h2
            exact h2
          rw [← hdrop]
          exact hocc
        exact List.mem_cons_of_mem n (ih (fun m hm => hn m (List.mem_cons_of_mem n hm)) hocc')

/-- The name returned by `get` at the trailing NUL of an occurrence of
`\0 s \0` is exactly `s`. -/
theorem getPair_at_exact_occ {p : NamePool} {s : List Nat} {x : Nat}
    (hs : (0:Nat) ∉ s) (hocc : occAt p.pool ([0] ++ s ++ [0]) x) :
    (p.getPair (x + ([0] ++ s ++ [0]).length - 1)).2 = s := by
  have hlen : ([0] ++ s ++ [0]).length = s.length + 2 := by simp
  have hoff : x + ([0] ++ s ++ [0]).length - 1 = x + s.length + 1 := by omega
  rw [hoff]
  have hnd : ∀ k, k < s.length → ((0:Nat) :: (s ++ [0]))[k + 1]? = s[k]? := by
    intro k hk
    rw [List.getElem?_cons_succ, List.getElem?_append_left hk]
  have hpool : ∀ k, k < s.length → p.pool[x + 1 + k]? = s[k]? := by
    intro k hk
    have := occAt_getElem hocc (k := k + 1) (by simp; omega)
    have harr : x + (k + 1) = x + 1 + k := by omega
    rw [harr] at this
    rw [this]
    show ((0:Nat) :: (s ++ [0]))[k + 1]? = s[k]?
    exact hnd k hk
  have hlast : p.pool[x + s.length + 1]? = some 0 := by
    have := occAt_getElem hocc (k := s.length + 1) (by simp)
    have harr : x + (s.length + 1) = x + s.length + 1 := by omega
    rw [harr] at this
    rw [this]
    show ((0:Nat) :: (s ++ [0]))[s.length + 1]? = some 0
    rw [List.getElem?_cons_succ, List.getElem?_append_right (by omega)]
    simp
  have hfirst : p.pool[x]? = some 0 := by
    have := occAt_getElem hocc (k := 0) (by simp)
    rw [Nat.add_zero] at this
    rw [this]
    show ((0:Nat) :: (s ++ [0]))[0]? = some 0
    simp
  have hend : p.endOf (x + s.length + 1) = x + s.length + 1 := NamePool.endOf_here hlast
  have hbeg : p.beginAt (x + s.length + 1) = x + 1 := by
    have h1 : p.beginAt (x + 1) = x + 1 := NamePool.beginAt_after_nul hfirst
    have h2 : p.beginAt (x + 1) = p.beginAt (x + s.length + 1) := by
      refine NamePool.beginAt_congr (by omega) (fun j hj1 hj2 => ?_)
      have hk : j - (x + 1) < s.length := by omega
      have := hpool (j - (x + 1)) hk
      have harr : x + 1 + (j - (x + 1)) = j := by omega
      rw [harr] at this
      rw [this]
      intro hcontra
      exact hs (getElem_opt_mem hcontra)
    rw [← h2, h1]
  rw [NamePool.getPair, hend, hbeg]
  obtain ⟨t, ht⟩ := hocc
  have hdrop1 : p.pool.drop (x + 1) = (s ++ [0]) ++ t := by
    have h1 : p.pool.drop (x + 1) = ((p.pool.drop x).drop 1) := by
      rw [List.drop_drop, Nat.add_comm]
    rw [h1, ← ht]
    rfl
  simp only [hdrop1]
  have harr2 : x + s.length + 1 - (x + 1) = s.length := by omega
  rw [harr2, List.append_assoc, List.take_left]

/-- The `search_exact` pattern `\0 s \0` passes the leading/trailing-NUL
assertion. -/
theorem searchExact_pattern_ok (p : NamePool) (s : List Nat) :
    p.searchExact ([0] ++ s ++ [0])
      = some ((findIter p.pool ([0] ++ s ++ [0])).map
          (fun x => (p.getPair (x + ([0] ++ s ++ [0]).length - 1)).2)) := by
  rw [NamePool.searchExact, if_pos]
  exact ⟨rfl, List.getLast?_concat _⟩

/-- C3 counterexample: pushing "a", "b", "a" and searching exactly for "a"
returns two results, not exactly one. -/
theorem searchExact_multiple_results :
    (NamePool.pushAll [[97], [98], [97]]).searchExact ([0] ++ [97] ++ [0])
      = some [[97], [97]] := by
  decide

/-- **C3** (amended): over a pool built by pushing NUL-free names, searching
exactly for a NUL-free slice `s` with the pattern `\0 s \0` never fails the
assertion, every returned name equals `s`, and the result list is nonempty
exactly when `s` is one of the pushed names.  (The original claim of "exactly
one" result is refuted by `searchExact_multiple_results`: `search_exact` does
not deduplicate.) -/
theorem searchExact_results (names : List (List Nat)) (s : List Nat)
    (hn : ∀ n ∈ names, (0:Nat) ∉ n) (hs : (0:Nat) ∉ s) :
    ∃ r, (NamePool.pushAll names).searchExact ([0] ++ s ++ [0]) = some r ∧
      (∀ t ∈ r, t = s) ∧ (r ≠ [] ↔ s ∈ names) := by
  have hne : ([0] ++ s ++ [0]) ≠ ([] : List Nat) := by simp
  refine ⟨_, searchExact_pattern_ok _ s, ?_, ?_⟩
  · intro t ht
    rw [List.mem_map] at ht
    obtain ⟨x, hx, rfl⟩ := ht
    exact getPair_at_exact_occ hs (findIter_sound hne hx)
  · constructor
    · intro hr
      cases hfi : findIter (NamePool.pushAll names).pool ([0] ++ s ++ [0]) with
      | nil => rw [hfi] at hr; simp at hr
      | cons a l =>
        have hx : a ∈ findIter (NamePool.pushAll names).pool ([0] ++ s ++ [0]) := by
          rw [hfi]; exact List.mem_cons_self a l
        have hocc := findIter_sound hne hx
        rw [pushAll_poolTail] at hocc
        exact mem_of_occ hn hs hocc
    · intro hmem
      obtain ⟨d, hd⟩ := occ_of_mem hmem
      have hocc : occAt (NamePool.pushAll names).pool ([0] ++ s ++ [0]) d := by
        rw [pushAll_poolTail]
        exact hd
      obtain ⟨x, hx, -, -⟩ := findIter_complete hne hocc
      intro hcon
      rw [List.map_eq_nil_iff] at hcon
      rw [hcon] at hx
      cases hx

theorem searchExact_results_witness :
    ∃ r, (NamePool.pushAll [[97], [98]]).searchExact ([0] ++ [97] ++ [0]) = some r ∧
      (∀ t ∈ r, t = [97]) ∧ (r ≠ [] ↔ [97] ∈ [[97], [98]]) :=
  searchExact_results [[97], [98]] [97] (by decide) (by decide)

/-! ## Merging machinery shared by `search_substr` and `par_search_substr` -/
/-- Positions with the same trailing NUL produce the same `get` pair. -/
theorem getPair_eq_of_endOf_eq_le {p : NamePool} {x y : Nat}
    (hy : y ≤ p.pool.length) (hxy : x ≤ y) (h : p.endOf x = p.endOf y) :
    p.getPair x = p.getPair y := by
  refine NamePool.getPair_congr hxy (fun j hj1 hj2 => ?_)
  have hye : y ≤ p.endOf y := NamePool.endOf_ge hy
  exact NamePool.endOf_no_nul hj1 (by omega)

theorem getPair_eq_of_endOf_eq {p : NamePool} {x y : Nat}
    (hx : x ≤ p.pool.length) (hy : y ≤ p.pool.length) (h : p.endOf x = p.endOf y) :
    p.getPair x = p.getPair y := by
  rcases Nat.le_total x y with hxy | hxy
  · exact getPair_eq_of_endOf_eq_le hy hxy h
  · exact (getPair_eq_of_endOf_eq_le hx hxy h.symm).symm

theorem mem_dedupByFstGo_sub {last : Nat × List Nat} {l : List (Nat × List Nat)}
    {z : Nat × List Nat} (h : z ∈ dedupByFst.dedupByFstGo last l) : z ∈ l := by
  induction l generalizing last with
  | nil => cases h
  | cons y ys ih =>
    rw [dedupByFst.dedupByFstGo] at h
    split at h
    · exact List.mem_cons_of_mem y (ih h)
    · rcases List.mem_cons.mp h with h | h
      · rw [h]; exact List.mem_cons_self y ys
      · exact List.mem_cons_of_mem y (ih h)

theorem mem_dedupByFst_sub {l : List (Nat × List Nat)} {z : Nat × List Nat}
    (h : z ∈ dedupByFst l) : z ∈ l := by
  cases l with
  | nil => cases h
  | cons x xs =>
    rw [dedupByFst] at h
    rcases List.mem_cons.mp h with h | h
    · rw [h]; exact List.mem_cons_self x xs
    · exact List.mem_cons_of_mem x (mem_dedupByFstGo_sub h)

theorem dedupByFstGo_covers {last : Nat × List Nat} {l : List (Nat × List Nat)}
    {x : Nat × List Nat} (h : x ∈ l) :
    x.1 = last.1 ∨ ∃ z ∈ dedupByFst.dedupByFstGo last l, z.1 = x.1 := by
  induction l generalizing last with
  | nil => cases h
  | cons y ys ih =>
    rw [dedupByFst.dedupByFstGo]
    rcases List.mem_cons.mp h with h | h
    · subst h
      split
      · rename_i heq
        exact Or.inl heq
      · exact Or.inr ⟨x, List.mem_cons_self x _, rfl⟩
    · split
      · exact ih h
      · rcases @ih y h with h' | ⟨z, hz, hz1⟩
        · exact Or.inr ⟨y, List.mem_cons_self y _, h'.symm ▸ rfl⟩
        · exact Or.inr ⟨z, List.mem_cons_of_mem y hz, hz1⟩

theorem dedupByFst_covers {l : List (Nat × List Nat)} {x : Nat × List Nat}
    (h : x ∈ l) : ∃ z ∈ dedupByFst l, z.1 = x.1 := by
  cases l with
  | nil => cases h
  | cons y ys =>
    rw [dedupByFst]
    rcases List.mem_cons.mp h with h | h
    · exact ⟨y, List.mem_cons_self y _, (h ▸ rfl)⟩
    · rcases @dedupByFstGo_covers y ys x h with h' | ⟨z, hz, hz1⟩
      · exact ⟨y, List.mem_cons_self y _, h'.symm⟩
      · exact ⟨z, List.mem_cons_of_mem y hz, hz1⟩

theorem mem_bmapInsert_sub {m : List (Nat × List Nat)} {kv z : Nat × List Nat}
    (h : z ∈ bmapInsert m kv) : z ∈ m ∨ z = kv := by
  induction m with
  | nil =>
    rw [bmapInsert] at h
    rcases List.mem_cons.mp h with h | h
    · exact Or.inr h
    · cases h
  | cons y ys ih =>
    obtain ⟨k, v⟩ := kv
    obtain ⟨k', v'⟩ := y
    rw [bmapInsert] at h
    split at h
    · rcases List.mem_cons.mp h with h | h
      · exact Or.inr h
      · exact Or.inl h
    · split at h
      · rcases List.mem_cons.mp h with h | h
        · exact Or.inr h
        · exact Or.inl (List.mem_cons_of_mem _ h)
      · rcases List.mem_cons.mp h with h | h
        · exact Or.inl (h ▸ List.mem_cons_self _ _)
        · rcases ih h with h' | h'
          · exact Or.inl (List.mem_cons_of_mem _ h')
          · exact Or.inr h'

theorem bmapInsert_self (m : List (Nat × List Nat)) (kv : Nat × List Nat) :
    ∃ z ∈ bmapInsert m kv, z.1 = kv.1 := by
  induction m with
  | nil => exact ⟨kv, by rw [bmapInsert]; exact List.mem_cons_self kv [], rfl⟩
  | cons y ys ih =>
    obtain ⟨k, v⟩ := kv
    obtain ⟨k', v'⟩ := y
    rw [bmapInsert]
    split
    · exact ⟨(k, v), List.mem_cons_self _ _, rfl⟩
    · split
      · exact ⟨(k, v), List.mem_cons_self _ _, rfl⟩
      · obtain ⟨z, hz, hz1⟩ := ih
        exact ⟨z, List.mem_cons_of_mem _ hz, hz1⟩

theorem bmapInsert_preserve {m : List (Nat × List Nat)} {z : Nat × List Nat}
    (kv : Nat × List Nat) (h : z ∈ m) :
    ∃ w ∈ bmapInsert m kv, w.1 = z.1 := by
  induction m with
  | nil => cases h
  | cons y ys ih =>
    obtain ⟨k, v⟩ := kv
    obtain ⟨k', v'⟩ := y
    rw [bmapInsert]
    split
    · exact ⟨z, List.mem_cons_of_mem _ h, rfl⟩
    · split
      · rename_i hlt heq
        rcases List.mem_cons.mp h with h | h
        · exact ⟨(k, v), List.mem_cons_self _ _, by rw [h]; exact heq.symm ▸ rfl⟩
        · exact ⟨z, List.mem_cons_of_mem _ h, rfl⟩
      · rcases List.mem_cons.mp h with h | h
        · exact ⟨z, h ▸ List.mem_cons_self _ _, rfl⟩
        · obtain ⟨w, hw, hw1⟩ := ih h
          exact ⟨w, List.mem_cons_of_mem _ hw, hw1⟩

theorem mem_foldl_bmapInsert_sub {l : List (Nat × List Nat)} :
    ∀ {m : List (Nat × List Nat)} {z : Nat × List Nat},
      z ∈ l.foldl bmapInsert m → z ∈ m ∨ z ∈ l := by
  induction l with
  | nil => intro m z h; exact Or.inl h
  | cons kv rest ih =>
    intro m z h
    rw [List.foldl_cons] at h
    rcases ih h with h' | h'
    · rcases mem_bmapInsert_sub h' with h'' | h''
      · exact Or.inl h''
      · exact Or.inr (h'' ▸ List.mem_cons_self kv rest)
    · exact Or.inr (List.mem_cons_of_mem kv h')

theorem foldl_bmapInsert_preserve {l : List (Nat × List Nat)} :
    ∀ {m : List (Nat × List Nat)} {k : Nat},
      (∃ z ∈ m, z.1 = k) → ∃ z ∈ l.foldl bmapInsert m, z.1 = k := by
  induction l with
  | nil => intro m k h; exact h
  | cons kv rest ih =>
    intro m k h
    obtain ⟨z, hz, hz1⟩ := h
    rw [List.foldl_cons]
    obtain ⟨w, hw, hw1⟩ := bmapInsert_preserve kv hz
    exact ih ⟨w, hw, hw1.trans hz1⟩

theorem foldl_bmapInsert_covers {l : List (Nat × List Nat)} {kv : Nat × List Nat}
    (h : kv ∈ l) : ∀ m : List (Nat × List Nat),
      ∃ z ∈ l.foldl bmapInsert m, z.1 = kv.1 := by
  induction l with
  | nil => cases h
  | cons y rest ih =>
    intro m
    rcases List.mem_cons.mp h with h' | h'
    · subst h'
      rw [List.foldl_cons]
      exact foldl_bmapInsert_preserve (bmapInsert_self m kv)
    · rw [List.foldl_cons]
      exact ih h' _

theorem getPair_fst (p : NamePool) (x : Nat) : (p.getPair x).1 = p.endOf x := rfl

/-- `chunkHits` with the `let` bindings expanded. -/
theorem chunkHits_eq (p : NamePool) (substr : List Nat) (cs i : Nat) :
    p.chunkHits substr cs i =
      ((findIter
          ((p.pool.drop i).take
            (min (min (i + cs) p.pool.length + substr.length - 1) p.pool.length - i))
          substr).filter
        (fun x => i + x < min (i + cs) p.pool.length)).map (i + ·) := rfl

/-- Every hit reported by a chunk is a real occurrence in the whole pool. -/
theorem chunkHits_sound {p : NamePool} {needle : List Nat} (hne : needle ≠ [])
    {cs i x : Nat} (h : x ∈ p.chunkHits needle cs i) : occAt p.pool needle x := by
  rw [chunkHits_eq] at h
  rw [List.mem_map] at h
  obtain ⟨y, hy, rfl⟩ := h
  rw [List.mem_filter] at hy
  have hocc := findIter_sound hne hy.1
  unfold occAt at hocc
  rw [List.drop_take, List.prefix_take_iff] at hocc
  exact occAt_drop.mp hocc.1

/-- Every occurrence in the pool overlaps a hit reported by its owning chunk. -/
theorem chunk_covers {p : NamePool} {needle : List Nat} (hne : needle ≠ [])
    {cs d : Nat} (hcs : 0 < cs) (hocc : occAt p.pool needle d) :
    ∃ i ∈ chunkStarts p.pool.length cs, ∃ x ∈ p.chunkHits needle cs i,
      x ≤ d ∧ d < x + needle.length := by
  have hd : d < p.pool.length := occAt_lt_length hne hocc
  have hdl : d + needle.length ≤ p.pool.length := occAt_add_length_le hne hocc
  have hnl : 1 ≤ needle.length := List.length_pos.mpr hne
  have hdm : cs * (d / cs) + d % cs = d := Nat.div_add_mod d cs
  have hdm' : d / cs * cs + d % cs = d := by rw [Nat.mul_comm] at hdm; exact hdm
  have hmod : d % cs < cs := Nat.mod_lt d hcs
  have hile : d / cs * cs ≤ d := Nat.div_mul_le_self d cs
  have hlt : d < d / cs * cs + cs := by omega
  have himem : d / cs * cs ∈ chunkStarts p.pool.length cs := by
    rw [chunkStarts]
    refine List.mem_map.mpr ⟨d / cs, ?_, rfl⟩
    rw [List.mem_range]
    have h1 : (p.pool.length + cs - 1) / cs = (p.pool.length - 1) / cs + 1 := by
      have h2 : p.pool.length + cs - 1 = (p.pool.length - 1) + cs := by omega
      rw [h2, Nat.add_div_right _ hcs]
    rw [h1]
    have h3 : d / cs ≤ (p.pool.length - 1) / cs := Nat.div_le_div_right (by omega)
    omega
  have hdse : d < min (d / cs * cs + cs) p.pool.length := by omega
  have hdre : d + needle.length
      ≤ min (min (d / cs * cs + cs) p.pool.length + needle.length - 1) p.pool.length := by
    omega
  have hoccslice : occAt
      ((p.pool.drop (d / cs * cs)).take
        (min (min (d / cs * cs + cs) p.pool.length + needle.length - 1) p.pool.length
          - d / cs * cs))
      needle (d - d / cs * cs) := by
    unfold occAt
    rw [List.drop_take, List.prefix_take_iff]
    constructor
    · refine occAt_drop.mpr ?_
      have h4 : d / cs * cs + (d - d / cs * cs) = d := by omega
      rw [h4]
      exact hocc
    · omega
  obtain ⟨y, hy, hyle, hylt⟩ := findIter_complete hne hoccslice
  refine ⟨d / cs * cs, himem, d / cs * cs + y, ?_, by omega, by omega⟩
  rw [chunkHits_eq]
  refine List.mem_map.mpr ⟨y, ?_, rfl⟩
  refine List.mem_filter.mpr ⟨hy, ?_⟩
  simp only [decide_eq_true_eq]
  omega

/-- `parSearchSubstr` with the `let` bindings expanded. -/
theorem parSearchSubstr_eq (par : Nat) (p : NamePool) (substr : List Nat) :
    NamePool.parSearchSubstr par p substr =
      if p.pool.length = 0 ∨ substr = [] then []
      else
        (((chunkStarts p.pool.length (chunkSize p.pool.length par)).flatMap
            (fun i => (p.chunkHits substr (chunkSize p.pool.length par) i).map
              p.getPair)).foldl bmapInsert []).map (·.2) := rfl

/-- Membership in the sequential search is exactly "name of some occurrence". -/
theorem searchSubstr_mem_iff {p : NamePool} {needle : List Nat} (hne : needle ≠ [])
    (hnul : (0:Nat) ∉ needle) {s : List Nat} :
    s ∈ p.searchSubstr needle ↔ ∃ d, occAt p.pool needle d ∧ (p.getPair d).2 = s := by
  rw [NamePool.searchSubstr]
  constructor
  · intro h
    rw [List.mem_map] at h
    obtain ⟨z, hz, rfl⟩ := h
    have hz' := mem_dedupByFst_sub hz
    rw [List.mem_map] at hz'
    obtain ⟨x, hx, rfl⟩ := hz'
    exact ⟨x, findIter_sound hne hx, rfl⟩
  · rintro ⟨d, hd, rfl⟩
    obtain ⟨x, hx, hxle, hxlt⟩ := findIter_complete hne hd
    have hpair : p.getPair x = p.getPair d :=
      occ_overlap_same_get hnul (findIter_sound hne hx) hxle hxlt
    have hmem : p.getPair x ∈ (findIter p.pool needle).map p.getPair :=
      List.mem_map_of_mem _ hx
    obtain ⟨z, hz, hz1⟩ := dedupByFst_covers hmem
    have hzsub := mem_dedupByFst_sub hz
    rw [List.mem_map] at hzsub
    obtain ⟨y, hy, hzy⟩ := hzsub
    have hey : p.endOf y = p.endOf x := by
      have h1 : (p.getPair y).1 = (p.getPair x).1 := by rw [hzy]; exact hz1
      rw [getPair_fst, getPair_fst] at h1
      exact h1
    have hpe : p.getPair y = p.getPair x :=
      getPair_eq_of_endOf_eq (le_of_lt (occAt_lt_length hne (findIter_sound hne hy)))
        (le_of_lt (occAt_lt_length hne (findIter_sound hne hx))) hey
    refine List.mem_map.mpr ⟨z, hz, ?_⟩
    rw [← hzy, hpe, hpair]

/-- Membership in the parallel search is exactly "name of some occurrence". -/
theorem parSearchSubstr_mem_iff {p : NamePool} {needle : List Nat} (hne : needle ≠ [])
    (hnul : (0:Nat) ∉ needle) (par : Nat) {s : List Nat} :
    s ∈ NamePool.parSearchSubstr par p needle
      ↔ ∃ d, occAt p.pool needle d ∧ (p.getPair d).2 = s := by
  rw [parSearchSubstr_eq]
  by_cases h0 : p.pool.length = 0 ∨ needle = []
  · rw [if_pos h0]
    rcases h0 with h0 | h0
    · simp only [List.not_mem_nil, false_iff]
      rintro ⟨d, hd, -⟩
      have := occAt_lt_length hne hd
      omega
    · exact absurd h0 hne
  · rw [if_neg h0]
    push_neg at h0
    constructor
    · intro h
      rw [List.mem_map] at h
      obtain ⟨z, hz, rfl⟩ := h
      rcases mem_foldl_bmapInsert_sub hz with hz' | hz'
      · cases hz'
      · rw [List.mem_flatMap] at hz'
        obtain ⟨i, hi, hz''⟩ := hz'
        rw [List.mem_map] at hz''
        obtain ⟨x, hx, rfl⟩ := hz''
        exact ⟨x, chunkHits_sound hne hx, rfl⟩
    · rintro ⟨d, hd, rfl⟩
      have hcs : 0 < chunkSize p.pool.length par := by
        rw [NamePool.chunkSize]
        have h1 : p.pool.length ≠ 0 := h0.1
        omega
      obtain ⟨i, hi, x, hx, hxle, hxlt⟩ := chunk_covers hne hcs hd
      have hpair : p.getPair x = p.getPair d :=
        occ_overlap_same_get hnul (chunkHits_sound hne hx) hxle hxlt
      have hmem : p.getPair x
          ∈ (chunkStarts p.pool.length (chunkSize p.pool.length par)).flatMap
              (fun i => (p.chunkHits needle (chunkSize p.pool.length par) i).map
                p.getPair) :=
        List.mem_flatMap.mpr ⟨i, hi, List.mem_map_of_mem _ hx⟩
      obtain ⟨z, hz, hz1⟩ := foldl_bmapInsert_covers hmem []
      rcases mem_foldl_bmapInsert_sub hz with h' | h'
      · cases h'
      · rw [List.mem_flatMap] at h'
        obtain ⟨j, hj, h''⟩ := h'
        rw [List.mem_map] at h''
        obtain ⟨y, hy, hzy⟩ := h''
        have hey : p.endOf y = p.endOf x := by
          have h1 : (p.getPair y).1 = (p.getPair x).1 := by rw [hzy]; exact hz1
          rw [getPair_fst, getPair_fst] at h1
          exact h1
        have hpe : p.getPair y = p.getPair x :=
          getPair_eq_of_endOf_eq
            (le_of_lt (occAt_lt_length hne (chunkHits_sound hne hy)))
            (le_of_lt (occAt_lt_length hne (chunkHits_sound hne hx))) hey
        refine List.mem_map.mpr ⟨z, hz, ?_⟩
        rw [← hzy, hpe, hpair]

theorem posOfNul_replicate {k b : Nat} (hb : b ≠ 0) :
    posOfNul (List.replicate k b) = none := by
  induction k with
  | zero => rfl
  | succ k ih => rw [List.replicate_succ, posOfNul, if_neg hb, ih]; rfl

/-- `find_iter` skips a run of bytes that cannot start a match. -/
theorem findIterGo_skip {n0 b : Nat} {t : List Nat} (hb : (n0 == b) = false) :
    ∀ (k fuel pos : Nat) (rest : List Nat),
      findIterGo (n0 :: t) (k + fuel) (List.replicate k b ++ rest) pos
        = findIterGo (n0 :: t) fuel rest (pos + k) := by
  intro k
  induction k with
  | zero => intro fuel pos rest; simp
  | succ k ih =>
    intro fuel pos rest
    rw [List.replicate_succ, List.cons_append]
    have hstep : k + 1 + fuel = (k + fuel) + 1 := by omega
    rw [hstep, findIterGo_succ_cons, if_neg (by simp [List.isPrefixOf, hb]),
      ih fuel (pos + 1) rest]
    have harr : pos + 1 + k = pos + (k + 1) := by omega
    rw [harr]

theorem boundaryPool_len : boundaryPool.pool.length = 1027 := by
  show (List.replicate 1022 98 ++ [97, 0, 97, 0, 97]).length = 1027
  rw [List.length_append, List.length_replicate]
  rfl

theorem boundaryPool_drop1022 : boundaryPool.pool.drop 1022 = [97, 0, 97, 0, 97] := by
  show (List.replicate 1022 98 ++ [97, 0, 97, 0, 97]).drop 1022 = _
  have h := @List.drop_append Nat (List.replicate 1022 98) [97, 0, 97, 0, 97] 0
  rw [List.length_replicate] at h
  have e : (1022 + 0 : Nat) = 1022 := rfl
  rw [e] at h
  rw [h]
  rw [List.drop_zero]

theorem boundaryPool_drop1024 : boundaryPool.pool.drop 1024 = [97, 0, 97] := by
  show (List.replicate 1022 98 ++ [97, 0, 97, 0, 97]).drop 1024 = _
  have h := @List.drop_append Nat (List.replicate 1022 98) [97, 0, 97, 0, 97] 2
  rw [List.length_replicate] at h
  have e : (1022 + 2 : Nat) = 1024 := rfl
  rw [e] at h
  rw [h]
  rfl

theorem boundaryPool_take1022 : boundaryPool.pool.take 1022 = List.replicate 1022 98 := by
  show (List.replicate 1022 98 ++ [97, 0, 97, 0, 97]).take 1022 = _
  have h := @List.take_append Nat (List.replicate 1022 98) [97, 0, 97, 0, 97] 0
  rw [List.length_replicate] at h
  have e : (1022 + 0 : Nat) = 1022 := rfl
  rw [e] at h
  rw [h]
  rw [List.take_zero, List.append_nil]

theorem boundaryPool_take1023 :
    boundaryPool.pool.take 1023 = List.replicate 1022 98 ++ [97] := by
  show (List.replicate 1022 98 ++ [97, 0, 97, 0, 97]).take 1023 = _
  have h := @List.take_append Nat (List.replicate 1022 98) [97, 0, 97, 0, 97] 1
  rw [List.length_replicate] at h
  have e : (1022 + 1 : Nat) = 1023 := rfl
  rw [e] at h
  rw [h]
  rfl

theorem boundaryPool_take1024 :
    boundaryPool.pool.take 1024 = List.replicate 1022 98 ++ [97, 0] := by
  show (List.replicate 1022 98 ++ [97, 0, 97, 0, 97]).take 1024 = _
  have h := @List.take_append Nat (List.replicate 1022 98) [97, 0, 97, 0, 97] 2
  rw [List.length_replicate] at h
  have e : (1022 + 2 : Nat) = 1024 := rfl
  rw [e] at h
  rw [h]
  rfl

theorem boundaryPool_take1026 :
    boundaryPool.pool.take 1026 = List.replicate 1022 98 ++ [97, 0, 97, 0] := by
  show (List.replicate 1022 98 ++ [97, 0, 97, 0, 97]).take 1026 = _
  have h := @List.take_append Nat (List.replicate 1022 98) [97, 0, 97, 0, 97] 4
  rw [List.length_replicate] at h
  have e : (1022 + 4 : Nat) = 1026 := rfl
  rw [e] at h
  rw [h]
  rfl

theorem boundaryPool_getPair1022 :
    boundaryPool.getPair 1022 = (1023, List.replicate 1022 98 ++ [97]) := by
  have hend : boundaryPool.endOf 1022 = 1023 := by
    rw [NamePool.endOf, boundaryPool_drop1022]
    have h1 : posOfNul [97, 0, 97, 0, 97] = some 1 := by decide
    rw [h1]
  have hbeg : boundaryPool.beginAt 1022 = 0 := by
    rw [NamePool.beginAt, boundaryPool_take1022, rposOfNul, List.reverse_replicate,
      posOfNul_replicate (by decide)]
    rfl
  rw [NamePool.getPair, hend, hbeg, List.drop_zero]
  have h2 : 1023 - 0 = 1023 := rfl
  rw [h2, boundaryPool_take1023]

theorem boundaryPool_getPair1024 : boundaryPool.getPair 1024 = (1025, [97]) := by
  have hend : boundaryPool.endOf 1024 = 1025 := by
    rw [NamePool.endOf, boundaryPool_drop1024]
    have h1 : posOfNul [97, 0, 97] = some 1 := by decide
    rw [h1]
  have hbeg : boundaryPool.beginAt 1024 = 1024 := by
    rw [NamePool.beginAt, boundaryPool_take1024]
    have h1 : List.replicate 1022 98 ++ [97, 0]
        = (List.replicate 1022 98 ++ [97]) ++ [0] := by
      rw [List.append_assoc]
      rfl
    rw [h1, rposOfNul_append_nul]
    have h2 : (List.replicate 1022 98 ++ [97]).length = 1023 := by
      rw [List.length_append, List.length_replicate]
      rfl
    rw [h2]
  rw [NamePool.getPair, hend, hbeg, boundaryPool_drop1024]
  rfl

theorem boundaryPool_findIter :
    findIter boundaryPool.pool [97, 0, 97] = [1022] := by
  show findIter (List.replicate 1022 98 ++ [97, 0, 97, 0, 97]) [97, 0, 97] = [1022]
  rw [findIter, if_neg (by decide)]
  have h1 : (List.replicate 1022 98 ++ [97, 0, 97, 0, 97]).length + 1 = 1022 + 6 := by
    rw [List.length_append, List.length_replicate]
    rfl
  rw [h1, findIterGo_skip (by decide) 1022 6 0]
  decide

theorem boundaryPool_seq :
    boundaryPool.searchSubstr [97, 0, 97] = [List.replicate 1022 98 ++ [97]] := by
  rw [NamePool.searchSubstr, boundaryPool_findIter, List.map_cons, List.map_nil,
    boundaryPool_getPair1022]
  rfl

theorem boundaryPool_chunkHits0 :
    boundaryPool.chunkHits [97, 0, 97] 1024 0 = [1022] := by
  rw [chunkHits_eq, boundaryPool_len]
  have h1 : min (min (0 + 1024) 1027 + ([97, 0, 97] : List Nat).length - 1) 1027 - 0
      = 1026 := by decide
  rw [h1, List.drop_zero, boundaryPool_take1026, findIter, if_neg (by decide)]
  have h2 : (List.replicate 1022 98 ++ [97, 0, 97, 0]).length + 1 = 1022 + 5 := by
    rw [List.length_append, List.length_replicate]
    rfl
  rw [h2, findIterGo_skip (by decide) 1022 5 0]
  have h3 : findIterGo [97, 0, 97] 5 [97, 0, 97, 0] (0 + 1022) = [1022] := by decide
  rw [h3]
  decide

theorem boundaryPool_chunkHits1024 :
    boundaryPool.chunkHits [97, 0, 97] 1024 1024 = [1024] := by
  rw [chunkHits_eq, boundaryPool_len]
  have h1 : min (min (1024 + 1024) 1027 + ([97, 0, 97] : List Nat).length - 1) 1027
      - 1024 = 3 := by decide
  rw [h1, boundaryPool_drop1024]
  have h2 : (([97, 0, 97] : List Nat)).take 3 = [97, 0, 97] := by decide
  rw [h2]
  have h3 : findIter [97, 0, 97] [97, 0, 97] = [0] := by decide
  rw [h3]
  decide

theorem boundaryPool_par :
    NamePool.parSearchSubstr 4 boundaryPool [97, 0, 97]
      = [List.replicate 1022 98 ++ [97], [97]] := by
  rw [parSearchSubstr_eq, if_neg (by rw [boundaryPool_len]; decide), boundaryPool_len]
  have hcs : NamePool.chunkSize 1027 4 = 1024 := by decide
  rw [hcs]
  have hst : NamePool.chunkStarts 1027 1024 = [0, 1024] := by decide
  rw [hst, List.flatMap_cons, List.flatMap_cons, List.flatMap_nil,
    boundaryPool_chunkHits0, boundaryPool_chunkHits1024, List.map_cons, List.map_nil,
    List.map_cons, List.map_nil, boundaryPool_getPair1022, boundaryPool_getPair1024]
  rfl

/-- C4 counterexample: with the default parallelism 4 and a needle that
contains a NUL byte, the parallel search returns a name ("a") that the
sequential search does not: the two matches at 1022 and 1024 overlap, the
sequential scan consumes only the first, but the chunks starting at 0 and 1024
each report one, and they end at different trailing NULs. -/
theorem parSearchSubstr_nul_mismatch :
    [97] ∈ NamePool.parSearchSubstr 4 boundaryPool [97, 0, 97] ∧
    [97] ∉ boundaryPool.searchSubstr [97, 0, 97] := by
  rw [boundaryPool_par, boundaryPool_seq]
  constructor
  · exact List.mem_cons_of_mem _ (List.mem_cons_self _ _)
  · intro h
    have h1 := List.mem_singleton.mp h
    have h2 := congrArg List.length h1
    rw [List.length_append, List.length_replicate] at h2
    simp at h2

/-- **C4** (amended): for every pool, every parallelism, and every nonempty
needle containing no NUL byte, the parallel `par_search_substr` and the
sequential `search_substr` return the same set of names.  (For needles that
contain a NUL byte the two can disagree: `parSearchSubstr_nul_mismatch`.) -/
theorem parSearchSubstr_same_members (par : Nat) (p : NamePool)
    (needle : List Nat) (hne : needle ≠ []) (hnul : (0:Nat) ∉ needle)
    (s : List Nat) :
    s ∈ NamePool.parSearchSubstr par p needle ↔ s ∈ p.searchSubstr needle := by
  rw [parSearchSubstr_mem_iff hne hnul par, searchSubstr_mem_iff hne hnul]

theorem parSearchSubstr_same_members_witness :
    ([97] ∈ NamePool.parSearchSubstr 4 (NamePool.pushAll [[97]]) [97]
      ↔ [97] ∈ (NamePool.pushAll [[97]]).searchSubstr [97]) :=
  parSearchSubstr_same_members 4 (NamePool.pushAll [[97]]) [97]
    (by decide) (by decide) [97]

end Cardinal
